import Mathlib

/-!
Verification of the live pipeline engine of `pex`.

The development shallowly embeds the Go sources:

- `stream/stream.go` : the line-indexed append-only `Buffer`
  (`Append`, `Len`, `NLines`, `Line`, `ReadAt`), the `Shared` source and
  its `Reader` cursor (`Reader.Read` with the single-flight fetch path);
- `pex.go`           : the controller state (`model`) and the edit pass
  `model.updatePagers` (diff/rebuild of the pager chain and the visible
  window computation), together with the pager constructors of `pager.go`;
- `shell/shell.go`   : the `Command` value type and its methods
  (`Equal`, `Empty`, `Name`, `Args`).  The parser itself wraps an external
  library and enters the model as an oracle argument (`ParseOut`).

Bytes are modelled as `Nat` (only the values 10 and 13 matter), byte slices
as `List Nat`, and Go pointer identity of pagers and shared sources as `Nat`
ids handed out by an allocation counter.  A Go runtime fault (slice bounds
out of range) is modelled by `Option.none`.  Side effects of an edit pass
are made explicit: `updatePagers` additionally returns the ids of the
pagers whose `close` (subprocess cancellation) was invoked, in call order.
Go loops are embedded as structural recursion over an explicit bound that
dominates the number of iterations; the bound is always large enough, which
the accompanying lemmas make precise.
-/

/-! ## stream/stream.go : the line-indexed buffer -/

/-- One entry of the line index: (start, contentEnd, rawEnd), as in the
`lines [][3]int` field of `Buffer` (comment in source: line start / CR / LF). -/
abbrev LineEntry := Nat × Nat × Nat

/-- Index of the first newline byte, `bytes.IndexByte(l, 10)` with `none`
for the -1 result. -/
def indexNL : List Nat → Option Nat
  | [] => none
  | b :: rest => if b = 10 then some 0 else (indexNL rest).map (· + 1)

/-- Index of the last carriage-return byte, `bytes.LastIndexByte(l, 13)`
with `none` for the -1 result. -/
def lastIndexCR : List Nat → Option Nat
  | [] => none
  | b :: rest =>
    match lastIndexCR rest with
    | some i => some (i + 1)
    | none => if b = 13 then some 0 else none

/-- The Go slice expression `buf[s:e]`. -/
def lineSlice (buf : List Nat) (s e : Nat) : List Nat :=
  (buf.drop s).take (e - s)

/-- The `appendLine` closure of `Buffer.Append`: register the line
`buf[start:end]`, with content cut at the last carriage return. -/
def appendLineEntry (buf : List Nat) (s e : Nat) : LineEntry :=
  let line := lineSlice buf s e
  let lineLen := (lastIndexCR line).getD line.length
  (s, s + lineLen, s + line.length)

/-- Embeds `Buffer.lastLineEnd` generalized to an arbitrary default for an empty
index (the Go method returns 0 there). -/
def lastLineEndD (d : Nat) (lines : List LineEntry) : Nat :=
  match lines.getLast? with
  | some e => e.2.2 + 1
  | none => d

/-- Embeds `Buffer.lastLineEnd`: one past the raw end of the last indexed line. -/
def lastLineEnd (lines : List LineEntry) : Nat :=
  lastLineEndD 0 lines

/-- The newline scan loop of `Buffer.Append`, with an explicit iteration
bound for structural recursion: starting at byte offset `pos`, register one
entry per newline-terminated line. -/
def scanLoopF (buf : List Nat) : Nat → Nat → List LineEntry
  | _, 0 => []
  | pos, fuel + 1 =>
    match indexNL (buf.drop pos) with
    | some i => appendLineEntry buf pos (pos + i) :: scanLoopF buf (pos + i + 1) fuel
    | none => []

/-- The newline scan loop of `Buffer.Append` (the bound `buf.length + 1`
dominates the iteration count, since every iteration advances). -/
def scanLoop (buf : List Nat) (pos : Nat) : List LineEntry :=
  scanLoopF buf pos (buf.length + 1)

/-- The resumption point of the scan loop, with the same explicit bound:
one past the last newline at or after `pos`, or `pos` when there is none. -/
def resumePosF (buf : List Nat) : Nat → Nat → Nat
  | pos, 0 => pos
  | pos, fuel + 1 =>
    match indexNL (buf.drop pos) with
    | some i => resumePosF buf (pos + i + 1) fuel
    | none => pos

/-- One past the last newline of `buf` at or after `pos`, or `pos` itself
when there is none. -/
def resumePos (buf : List Nat) (pos : Nat) : Nat :=
  resumePosF buf pos (buf.length + 1)

/-- The `Buffer` of `stream/stream.go`: append-only byte store plus the
incrementally maintained line index. -/
structure Buffer where
  buf : List Nat
  lines : List LineEntry
deriving DecidableEq, Repr

/-- The zero value `new(Buffer)`. -/
def emptyBuffer : Buffer := ⟨[], []⟩

/-- Embeds `Buffer.Append`: drop the (possibly unterminated) final index entry,
rescan from the start of that line over the extended bytes, and register a
trailing entry when the buffer does not end in a newline. -/
def Buffer.append (b : Buffer) (p : List Nat) : Buffer :=
  if p = [] then b
  else
    let lines1 := b.lines.dropLast
    let lastStart := lastLineEnd lines1
    let buf2 := b.buf ++ p
    let lines2 := lines1 ++ scanLoop buf2 lastStart
    let lines3 :=
      if buf2.getLast? ≠ some 10 then
        lines2 ++ [appendLineEntry buf2 (lastLineEnd lines2) buf2.length]
      else lines2
    ⟨buf2, lines3⟩

/-- Embeds `Buffer.Len`. -/
def Buffer.len (b : Buffer) : Nat := b.buf.length

/-- Embeds `Buffer.NLines`. -/
def Buffer.nLines (b : Buffer) : Nat := b.lines.length

/-- Embeds `Buffer.Line(n)`: content bytes of the n-th line (empty when out of
range); the argument is `Int` because the Go parameter is a signed int. -/
def Buffer.line (b : Buffer) (n : Int) : List Nat :=
  if n < 0 ∨ (b.lines.length : Int) ≤ n then []
  else
    let e := b.lines.getD n.toNat (0, 0, 0)
    lineSlice b.buf e.1 e.2.1

/-- Embeds `Buffer.ReadAt(p, off)` for a destination of capacity `cap`: `none`
models the Go runtime fault of the slice expression `b.buf[off:]` when
`off` is negative or beyond the buffered length; otherwise the copied
bytes are returned (their count is the Go result n, the error is nil). -/
def Buffer.readAt (b : Buffer) (cap : Nat) (off : Int) : Option (List Nat) :=
  if off < 0 ∨ (b.buf.length : Int) < off then none
  else some ((b.buf.drop off.toNat).take cap)

/-! ## stream/stream.go : Shared and Reader -/

/-- Error value returned by an underlying stream read (`io.EOF` or any
other error). -/
inductive StreamErr where
  | eof : StreamErr
  | failure (msg : String) : StreamErr
deriving DecidableEq, Repr

/-- The `Shared` source: the cache buffer plus the underlying `io.Reader`,
modelled as the script of results its successive `Read` calls produce. -/
structure Shared where
  buf : Buffer
  pending : List (List Nat × Option StreamErr)
deriving DecidableEq, Repr

/-- A `Reader` cursor: its private offset into the shared buffer. -/
structure Reader where
  off : Nat
deriving DecidableEq, Repr

/-- Embeds `Reader.Read` with a destination of capacity `cap`: serve cached data
when the offset is below the buffered length (checked twice, mirroring the
double-check around the fetch lock; the two checks coincide in this
sequential model); otherwise perform one underlying read, append the bytes
obtained to the cache and hand bytes and error to the caller.  Exactly as
in the source, the fetch path leaves `off` unchanged.  An underlying read
against an exhausted script returns no data and no error (a stream that is
merely not ready). -/
def Reader.read (r : Reader) (s : Shared) (cap : Nat) :
    (List Nat × Option StreamErr) × Reader × Shared :=
  if r.off < s.buf.len then
    let bytes := (s.buf.buf.drop r.off).take cap
    ((bytes, none), ⟨r.off + bytes.length⟩, s)
  else if r.off < s.buf.len then
    let bytes := (s.buf.buf.drop r.off).take cap
    ((bytes, none), ⟨r.off + bytes.length⟩, s)
  else
    match s.pending with
    | [] => (([], none), r, s)
    | (chunk, e) :: rest =>
      let bytes := chunk.take cap
      let buf2 := if 0 < bytes.length then s.buf.append bytes else s.buf
      ((bytes, e), r, ⟨buf2, rest⟩)

/-! ## Specification-side definitions for the buffer -/

/-- Raw line decomposition of a byte sequence, following the words of the
spec: one raw line (terminator excluded) per newline, plus the trailing
unterminated fragment when nonempty.  Structural recursion over the same
kind of bound as the scan loop. -/
def specRawLinesF : Nat → List Nat → List (List Nat)
  | 0, _ => []
  | fuel + 1, buf =>
    match indexNL buf with
    | some i => buf.take i :: specRawLinesF fuel (buf.drop (i + 1))
    | none => if buf = [] then [] else [buf]

/-- Raw line decomposition of a byte sequence (see `specRawLinesF`). -/
def specRawLines (buf : List Nat) : List (List Nat) :=
  specRawLinesF (buf.length + 1) buf

/-- Content of one raw line: truncate at the last carriage return when one
is present (what `appendLine` computes on the raw line). -/
def contentOfRaw (l : List Nat) : List Nat :=
  l.take ((lastIndexCR l).getD l.length)

/-- Append a list of chunks by successive `Append` calls. -/
def appendAll (chunks : List (List Nat)) : Buffer :=
  chunks.foldl Buffer.append emptyBuffer

/-- The line index determined by the byte sequence alone: what one single
`Append` of the whole sequence produces on a fresh buffer. -/
def canonicalLines (buf : List Nat) : List LineEntry :=
  if buf = [] then []
  else
    let ls := scanLoop buf 0
    if buf.getLast? ≠ some 10 then
      ls ++ [appendLineEntry buf (lastLineEnd ls) buf.length]
    else ls

/-! ## shell/shell.go : commands -/

/-- Embeds `shell.Command`: ordered argument vector plus the raw substring it was
parsed from. -/
structure Command where
  argv : List String
  raw : String
deriving DecidableEq, Repr

instance : Inhabited Command := ⟨⟨[], ""⟩⟩

/-- Embeds `Command.Equal`: argument-vector equality (`slices.Equal`); `Raw` is
ignored. -/
def Command.equal (p q : Command) : Bool := p.argv == q.argv

/-- Embeds `Command.Empty`. -/
def Command.empty (p : Command) : Bool := p.argv.isEmpty

/-- Embeds `Command.Name`: first argv entry, or empty. -/
def Command.name (p : Command) : String :=
  if p.empty then "" else p.argv.headD ""

/-- Embeds `Command.Args`: argv entries after the name. -/
def Command.args (p : Command) : List String :=
  if p.empty then [] else p.argv.tail

/-! ## pager.go : pagers -/

/-- A `pager`, reduced to the fields the controller logic depends on:
its command, the identity of the `Shared` source it owns (also serving as
the pager identity, since every constructed pager owns a fresh source),
and the identity of the `Shared` its subprocess reads as standard input
(present only for command pagers). -/
structure Pager where
  command : Command
  shared : Nat
  stdin : Option Nat
deriving DecidableEq, Repr

instance : Inhabited Pager := ⟨⟨default, 0, none⟩⟩

/-- Embeds `newPager`: fresh `Shared`, zero-valued command, no subprocess; takes
and returns the id allocator. -/
def newPager (n : Nat) : Pager × Nat :=
  (⟨default, n, none⟩, n + 1)

/-- Embeds `newEmptyPager`. -/
def newEmptyPager (n : Nat) : Pager × Nat := newPager n

/-- Embeds `newCommandPager r command`: an empty command degrades to an empty
pager; otherwise launch the subprocess with standard input cursoring the
previous source `r` and a fresh `Shared` fed by its combined output (the
launch-failure path `newErrorPager`, which depends on the OS, is not
modelled: launches succeed here). -/
def newCommandPager (r : Nat) (c : Command) (n : Nat) : Pager × Nat :=
  if c.empty then newEmptyPager n
  else (⟨c, n, some r⟩, n + 1)

/-! ## pex.go : controller state and updatePagers -/

/-- The outcome of `shell.Parse` on the edited text, supplied to the edit
pass as an oracle: the parsed commands and pipe offsets, or a parse
error. -/
inductive ParseOut where
  | ok (cmds : List Command) (pipes : List Nat) : ParseOut
  | fail (msg : String) : ParseOut
deriving DecidableEq, Repr

/-- An error surfaced to the help area: a parse error, or the
press-space guard of `updatePagers` for a trailing bare program name. -/
inductive UIError where
  | parse (msg : String) : UIError
  | pressSpace (name : String) : UIError
deriving DecidableEq, Repr

/-- Embeds `strings.HasSuffix(s, " ")`: since the suffix is the single character
space, this is exactly a check of the last character. -/
def hasSuffixSpace (s : String) : Bool :=
  s.data.getLast? = some ' '

/-- The controller state (`model`), reduced to the fields `updatePagers`
reads and writes; `nextShared` is the id allocator standing in for Go
pointer freshness. -/
structure MState where
  pagers : List Pager
  commands : List Command
  pipes : List Nat
  minPager : Nat
  maxPager : Nat
  focusedPager : Nat
  err : Option UIError
  nextShared : Nat
deriving DecidableEq, Repr

/-- Embeds `maxPagers` of pex.go. -/
def maxPagers : Nat := 3

/-- Embeds `sort.SearchInts xs pos` for sorted `xs`: the least index whose entry
is at least `pos`, or the length. -/
def searchInts : List Nat → Nat → Nat
  | [], _ => 0
  | x :: rest, pos => if pos ≤ x then 0 else searchInts rest pos + 1

/-- The growth loop of `updatePagers` (`for nPagers > len(m.pagers)`),
run for its exact iteration count `missing`. -/
def growLoop : Nat → List Pager → Nat → List Pager × Nat
  | 0, pagers, n => (pagers, n)
  | missing + 1, pagers, n =>
    growLoop missing (pagers ++ [(newEmptyPager n).1]) (newEmptyPager n).2

/-- Append empty pagers until the count reaches `target`. -/
def growPagers (pagers : List Pager) (n target : Nat) : List Pager × Nat :=
  growLoop (target - pagers.length) pagers n

/-- The scan for the diverge index: first index `i ≥ 1` whose pager
command is not `Equal` to `commands[i-1]`, else -1.  The index `i` stays
in range of `commands` at every call site, as in the source. -/
def findRebuildIdxAux : List Pager → List Command → Nat → Int
  | [], _, _ => -1
  | p :: rest, commands, i =>
    if i = 0 then findRebuildIdxAux rest commands (i + 1)
    else if ¬ (p.command.equal (commands.getD (i - 1) default)) then (i : Int)
    else findRebuildIdxAux rest commands (i + 1)

/-- First diverging stage index, or -1. -/
def findRebuildIdx (pagers : List Pager) (commands : List Command) : Int :=
  findRebuildIdxAux pagers commands 0

/-- The rebuild loop of `updatePagers`, run for its exact iteration count
(`len(pagers) - i`): close the old pager at each index from `i` on and
replace it with a command pager reading the source of the (possibly just
rebuilt) previous pager.  Returns the new pager list, the allocator, and
the closed pager ids in call order. -/
def rebuildLoop : Nat → List Pager → List Command → Nat → Nat →
    List Pager × Nat × List Nat
  | 0, pagers, _, _, n => (pagers, n, [])
  | k + 1, pagers, commands, i, n =>
    let old := pagers.getD i default
    let launched := newCommandPager (pagers.getD (i - 1) default).shared
      (commands.getD (i - 1) default) n
    let rest := rebuildLoop k (pagers.set i launched.1) commands (i + 1) launched.2
    (rest.1, rest.2.1, old.shared :: rest.2.2)

/-- Rebuild all pagers from index `i` to the end. -/
def rebuildFrom (pagers : List Pager) (commands : List Command) (i n : Nat) :
    List Pager × Nat × List Nat :=
  rebuildLoop (pagers.length - i) pagers commands i n

/-- Embeds `model.updatePagers`, as one edit pass: takes the raw edit text, the
cursor position and the parse outcome; returns the new state and the ids
of the pagers that were closed (cancelled), in call order.  The view-only
effects (focus/blur flags, logging) are not modelled. -/
def updatePagers (m : MState) (rawShell : String) (pos : Nat)
    (parsed : ParseOut) : MState × List Nat :=
  let res :=
    match parsed with
    | ParseOut.ok cs ps => (cs, ps, (none : Option UIError))
    | ParseOut.fail e => (([] : List Command), ([] : List Nat), some (UIError.parse e))
  let shellCommands := res.1
  let pipeOffsets := 0 :: res.2.1
  let perr := res.2.2
  let err : Option UIError :=
    if perr = none ∧ 0 < shellCommands.length then
      let last := shellCommands.getLastD default
      if last.name ≠ "" ∧ last.args.length = 0 ∧ ¬ hasSuffixSpace rawShell then
        some (UIError.pressSpace last.name)
      else none
    else perr
  let m1 :=
    if err.isSome then { m with err := err }
    else { m with err := none, commands := shellCommands, pipes := pipeOffsets }
  let nPagers := m1.commands.length + 1
  let grown := growPagers m1.pagers m1.nextShared nPagers
  let pg1 := grown.1
  let n1 := grown.2
  let closedExcess := (pg1.drop nPagers).map (fun p => p.shared)
  let pg2 := pg1.take nPagers
  let rIdx := findRebuildIdx pg2 m1.commands
  let rebuilt :=
    if 0 < rIdx then rebuildFrom pg2 m1.commands rIdx.toNat n1
    else (pg2, n1, ([] : List Nat))
  let pg3 := rebuilt.1
  let n2 := rebuilt.2.1
  let closedRebuilt := rebuilt.2.2
  let focused := searchInts m1.pipes pos
  let mx1 := min m1.maxPager (pg3.length - 1)
  let w1 := if mx1 < focused then (focused + 1 - maxPagers, focused) else (m1.minPager, mx1)
  let w2 :=
    if focused < w1.1 then (focused, min (focused + maxPagers - 1) pg3.length)
    else w1
  ({ m1 with pagers := pg3, nextShared := n2, focusedPager := focused,
             minPager := w2.1, maxPager := w2.2 },
   closedExcess ++ closedRebuilt)

/-- The controller state built by `newModel`: the stdin/file pager at
index 0 plus one empty pager, window at stage 0, no commands yet. -/
def initialModel : MState where
  pagers := [⟨default, 0, none⟩, ⟨default, 1, none⟩]
  commands := []
  pipes := []
  minPager := 0
  maxPager := 0
  focusedPager := 0
  err := none
  nextShared := 2

example : (emptyBuffer.append [104, 105, 10]).nLines = 1 := by decide
example : (emptyBuffer.append [104, 105, 10, 120]).nLines = 2 := by decide
example : (emptyBuffer.append [104, 13, 10]).line 0 = [104] := by decide
example :
    appendAll [[104], [13], [10], [120]] = emptyBuffer.append [104, 13, 10, 120] := by
  decide


/-! ## Lemmas: the newline scan -/

theorem indexNL_lt_length {l : List Nat} {i : Nat} (h : indexNL l = some i) :
    i < l.length := by
  induction l generalizing i with
  | nil => simp [indexNL] at h
  | cons b rest ih =>
    by_cases hb : b = 10
    · simp only [indexNL, if_pos hb] at h
      cases h
      simp
    · simp only [indexNL, if_neg hb] at h
      cases hr : indexNL rest with
      | none => rw [hr] at h; simp at h
      | some j =>
        rw [hr] at h
        simp only [Option.map_some'] at h
        cases h
        have := ih hr
        simp only [List.length_cons]
        omega

theorem indexNL_append_some {a : List Nat} {i : Nat} (b : List Nat)
    (h : indexNL a = some i) : indexNL (a ++ b) = some i := by
  induction a generalizing i with
  | nil => simp [indexNL] at h
  | cons x rest ih =>
    by_cases hx : x = 10
    · simp only [indexNL, if_pos hx] at h
      simp only [List.cons_append, indexNL, if_pos hx]
      exact h
    · simp only [indexNL, if_neg hx] at h
      simp only [List.cons_append, indexNL, if_neg hx, List.append_eq]
      cases hr : indexNL rest with
      | none => rw [hr] at h; simp at h
      | some j =>
        rw [hr] at h
        rw [ih hr]
        exact h

theorem indexNL_none_iff {l : List Nat} : indexNL l = none ↔ 10 ∉ l := by
  induction l with
  | nil => simp [indexNL]
  | cons b rest ih =>
    by_cases hb : b = 10
    · subst hb
      simp [indexNL]
    · simp only [indexNL, if_neg hb, List.mem_cons]
      rw [Option.map_eq_none']
      rw [ih]
      constructor
      · intro h hc
        rcases hc with hc | hc
        · exact hb hc.symm
        · exact h hc
      · intro h hc
        exact h (Or.inr hc)

theorem scanLoopF_congr {buf : List Nat} :
    ∀ {f1 f2 pos : Nat}, buf.length - pos < f1 → buf.length - pos < f2 →
      scanLoopF buf pos f1 = scanLoopF buf pos f2 := by
  intro f1
  induction f1 with
  | zero => intro f2 pos h1 h2; omega
  | succ k1 ih =>
    intro f2 pos h1 h2
    cases f2 with
    | zero => omega
    | succ k2 =>
      cases hnl : indexNL (buf.drop pos) with
      | none => simp only [scanLoopF, hnl]
      | some i =>
        have hlt := indexNL_lt_length hnl
        simp only [List.length_drop] at hlt
        simp only [scanLoopF, hnl]
        rw [@ih k2 (pos + i + 1) (by omega) (by omega)]

theorem scanLoop_some {buf : List Nat} {pos i : Nat}
    (h : indexNL (buf.drop pos) = some i) :
    scanLoop buf pos = appendLineEntry buf pos (pos + i) :: scanLoop buf (pos + i + 1) := by
  have hlt := indexNL_lt_length h
  simp only [List.length_drop] at hlt
  simp only [scanLoop, scanLoopF, h]
  congr 1
  exact @scanLoopF_congr buf (buf.length) (buf.length + 1) (pos + i + 1) (by omega) (by omega)

theorem scanLoop_none {buf : List Nat} {pos : Nat}
    (h : indexNL (buf.drop pos) = none) : scanLoop buf pos = [] := by
  simp [scanLoop, scanLoopF, h]

theorem resumePosF_congr {buf : List Nat} :
    ∀ {f1 f2 pos : Nat}, buf.length - pos < f1 → buf.length - pos < f2 →
      resumePosF buf pos f1 = resumePosF buf pos f2 := by
  intro f1
  induction f1 with
  | zero => intro f2 pos h1 h2; omega
  | succ k1 ih =>
    intro f2 pos h1 h2
    cases f2 with
    | zero => omega
    | succ k2 =>
      cases hnl : indexNL (buf.drop pos) with
      | none => simp only [resumePosF, hnl]
      | some i =>
        have hlt := indexNL_lt_length hnl
        simp only [List.length_drop] at hlt
        simp only [resumePosF, hnl]
        exact ih (by omega) (by omega)

theorem resumePos_some {buf : List Nat} {pos i : Nat}
    (h : indexNL (buf.drop pos) = some i) :
    resumePos buf pos = resumePos buf (pos + i + 1) := by
  have hlt := indexNL_lt_length h
  simp only [List.length_drop] at hlt
  simp only [resumePos, resumePosF, h]
  exact @resumePosF_congr buf (buf.length) (buf.length + 1) (pos + i + 1) (by omega) (by omega)

theorem resumePos_none {buf : List Nat} {pos : Nat}
    (h : indexNL (buf.drop pos) = none) : resumePos buf pos = pos := by
  simp [resumePos, resumePosF, h]

theorem lineSlice_stable {buf : List Nat} (p : List Nat) {s e : Nat}
    (he : e ≤ buf.length) : lineSlice (buf ++ p) s e = lineSlice buf s e := by
  unfold lineSlice
  by_cases hs : s ≤ buf.length
  · rw [List.drop_append_of_le_length hs]
    have : e - s ≤ (buf.drop s).length := by
      simp only [List.length_drop]
      omega
    rw [List.take_append_of_le_length this]
  · have h1 : e - s = 0 := by omega
    simp [h1]

theorem appendLineEntry_stable {buf : List Nat} (p : List Nat) {s e : Nat}
    (he : e ≤ buf.length) :
    appendLineEntry (buf ++ p) s e = appendLineEntry buf s e := by
  unfold appendLineEntry
  rw [lineSlice_stable p he]

theorem appendLineEntry_nl {buf : List Nat} {s e : Nat} (hs : s ≤ e)
    (he : e ≤ buf.length) : (appendLineEntry buf s e).2.2 = e := by
  unfold appendLineEntry lineSlice
  simp only [List.length_take, List.length_drop]
  omega

theorem scanLoop_split (buf p : List Nat) :
    ∀ pos, pos ≤ buf.length →
      scanLoop (buf ++ p) pos = scanLoop buf pos ++ scanLoop (buf ++ p) (resumePos buf pos) := by
  have main : ∀ fuel pos, buf.length - pos < fuel → pos ≤ buf.length →
      scanLoop (buf ++ p) pos = scanLoop buf pos ++ scanLoop (buf ++ p) (resumePos buf pos) := by
    intro fuel
    induction fuel with
    | zero => intro pos h1 h2; omega
    | succ k ih =>
      intro pos h1 h2
      cases hnl : indexNL (buf.drop pos) with
      | none =>
        rw [scanLoop_none hnl, resumePos_none hnl]
        simp
      | some i =>
        have hlt := indexNL_lt_length hnl
        simp only [List.length_drop] at hlt
        have hnl2 : indexNL ((buf ++ p).drop pos) = some i := by
          rw [List.drop_append_of_le_length h2]
          exact indexNL_append_some p hnl
        rw [scanLoop_some hnl2, scanLoop_some hnl, resumePos_some hnl]
        rw [appendLineEntry_stable p (by omega)]
        rw [ih (pos + i + 1) (by omega) (by omega)]
        simp
  intro pos h
  exact main (buf.length - pos + 1) pos (by omega) h

theorem lastLineEndD_cons (d : Nat) (E : LineEntry) (l : List LineEntry) :
    lastLineEndD d (E :: l) = lastLineEndD (E.2.2 + 1) l := by
  cases l with
  | nil => simp [lastLineEndD]
  | cons x xs =>
    simp only [lastLineEndD, List.getLast?_cons_cons]
    cases h : (x :: xs).getLast? with
    | none => simp at h
    | some e => rfl

theorem dropLast_cons_ne {E : LineEntry} {l : List LineEntry} (h : l ≠ []) :
    (E :: l).dropLast = E :: l.dropLast := by
  cases l with
  | nil => exact absurd rfl h
  | cons x xs => rfl

theorem resumePos_eq_lastLineEndD (buf : List Nat) :
    ∀ pos, pos ≤ buf.length →
      resumePos buf pos = lastLineEndD pos (scanLoop buf pos) := by
  have main : ∀ fuel pos, buf.length - pos < fuel → pos ≤ buf.length →
      resumePos buf pos = lastLineEndD pos (scanLoop buf pos) := by
    intro fuel
    induction fuel with
    | zero => intro pos h1 h2; omega
    | succ k ih =>
      intro pos h1 h2
      cases hnl : indexNL (buf.drop pos) with
      | none =>
        rw [scanLoop_none hnl, resumePos_none hnl]
        rfl
      | some i =>
        have hlt := indexNL_lt_length hnl
        simp only [List.length_drop] at hlt
        rw [scanLoop_some hnl, resumePos_some hnl]
        rw [lastLineEndD_cons]
        rw [appendLineEntry_nl (by omega) (by omega)]
        exact ih (pos + i + 1) (by omega) (by omega)
  intro pos h
  exact main (buf.length - pos + 1) pos (by omega) h

theorem scanLoop_split_dropLast (buf p : List Nat) :
    ∀ pos, pos ≤ buf.length → scanLoop buf pos ≠ [] →
      scanLoop (buf ++ p) pos =
        (scanLoop buf pos).dropLast ++
          scanLoop (buf ++ p) (lastLineEndD pos (scanLoop buf pos).dropLast) := by
  have main : ∀ fuel pos, buf.length - pos < fuel → pos ≤ buf.length →
      scanLoop buf pos ≠ [] →
      scanLoop (buf ++ p) pos =
        (scanLoop buf pos).dropLast ++
          scanLoop (buf ++ p) (lastLineEndD pos (scanLoop buf pos).dropLast) := by
    intro fuel
    induction fuel with
    | zero => intro pos h1 h2 h3; omega
    | succ k ih =>
      intro pos h1 h2 h3
      cases hnl : indexNL (buf.drop pos) with
      | none => exact absurd (scanLoop_none hnl) h3
      | some i =>
        have hlt := indexNL_lt_length hnl
        simp only [List.length_drop] at hlt
        have hnl2 : indexNL ((buf ++ p).drop pos) = some i := by
          rw [List.drop_append_of_le_length h2]
          exact indexNL_append_some p hnl
        have hE : appendLineEntry (buf ++ p) pos (pos + i) = appendLineEntry buf pos (pos + i) :=
          appendLineEntry_stable p (by omega)
        have hE2 : (appendLineEntry buf pos (pos + i)).2.2 = pos + i :=
          appendLineEntry_nl (by omega) (by omega)
        rw [scanLoop_some hnl2, scanLoop_some hnl, hE]
        by_cases htail : scanLoop buf (pos + i + 1) = []
        · rw [htail]
          simp only [List.dropLast_single, lastLineEndD, List.getLast?_nil, List.nil_append]
          rw [scanLoop_some hnl2, hE]
        · rw [dropLast_cons_ne htail]
          rw [lastLineEndD_cons, hE2]
          rw [ih (pos + i + 1) (by omega) (by omega) htail]
          simp
  intro pos h1 h2
  exact main (buf.length - pos + 1) pos (by omega) h1 h2

theorem mem_of_getLast?_eq {l : List Nat} {a : Nat} (h : l.getLast? = some a) :
    a ∈ l := by
  induction l with
  | nil => simp at h
  | cons x xs ih =>
    cases xs with
    | nil =>
      simp only [List.getLast?_singleton, Option.some_inj] at h
      simp [h]
    | cons y ys =>
      rw [List.getLast?_cons_cons] at h
      exact List.mem_cons_of_mem x (ih h)

theorem scanLoop_ne_nil_of_last_nl {buf : List Nat} (h : buf.getLast? = some 10) :
    scanLoop buf 0 ≠ [] := by
  have hmem : (10 : Nat) ∈ buf := mem_of_getLast?_eq h
  cases hnl : indexNL (buf.drop 0) with
  | none =>
    rw [List.drop_zero] at hnl
    exact absurd hmem (indexNL_none_iff.mp hnl)
  | some i =>
    rw [scanLoop_some hnl]
    simp

theorem append_canonical (buf p : List Nat) (hp : p ≠ []) :
    Buffer.append ⟨buf, canonicalLines buf⟩ p = ⟨buf ++ p, canonicalLines (buf ++ p)⟩ := by
  have hbp : buf ++ p ≠ [] := by
    intro hc
    rcases List.append_eq_nil.mp hc with ⟨_, h2⟩
    exact hp h2
  have key : (canonicalLines buf).dropLast ++
      scanLoop (buf ++ p) (lastLineEnd (canonicalLines buf).dropLast) =
        scanLoop (buf ++ p) 0 := by
    by_cases hb : buf = []
    · subst hb
      simp only [canonicalLines, if_pos rfl, List.dropLast_nil, List.nil_append]
      rfl
    · by_cases hnl : buf.getLast? = some 10
      · have hcan : canonicalLines buf = scanLoop buf 0 := by
          simp [canonicalLines, hb, hnl]
        have hls := scanLoop_ne_nil_of_last_nl hnl
        rw [hcan]
        exact (scanLoop_split_dropLast buf p 0 (Nat.zero_le _) hls).symm
      · have hcan : canonicalLines buf =
            scanLoop buf 0 ++ [appendLineEntry buf (lastLineEnd (scanLoop buf 0)) buf.length] := by
          simp [canonicalLines, hb, hnl]
        rw [hcan, List.dropLast_concat]
        rw [scanLoop_split buf p 0 (Nat.zero_le _)]
        rw [resumePos_eq_lastLineEndD buf 0 (Nat.zero_le _)]
        rfl
  show Buffer.append ⟨buf, canonicalLines buf⟩ p = _
  unfold Buffer.append
  rw [if_neg hp]
  simp only
  rw [key]
  simp only [canonicalLines, if_neg hbp]

theorem Buffer.append_nil (b : Buffer) : b.append [] = b := by
  simp [Buffer.append]

theorem foldl_append_canonical (chunks : List (List Nat)) :
    ∀ buf : List Nat,
      List.foldl Buffer.append ⟨buf, canonicalLines buf⟩ chunks =
        ⟨buf ++ chunks.flatten, canonicalLines (buf ++ chunks.flatten)⟩ := by
  induction chunks with
  | nil => intro buf; simp
  | cons c cs ih =>
    intro buf
    by_cases hc : c = []
    · subst hc
      simp only [List.foldl_cons, Buffer.append_nil, List.flatten_cons, List.nil_append]
      exact ih buf
    · simp only [List.foldl_cons, List.flatten_cons]
      rw [append_canonical buf c hc]
      rw [ih (buf ++ c)]
      simp [List.append_assoc]

theorem canonicalLines_nil : canonicalLines [] = [] := by
  simp [canonicalLines]

theorem appendAll_eq_single (chunks : List (List Nat)) :
    appendAll chunks = emptyBuffer.append chunks.flatten := by
  have h0 : emptyBuffer = ⟨[], canonicalLines []⟩ := by
    simp [emptyBuffer, canonicalLines_nil]
  unfold appendAll
  rw [h0, foldl_append_canonical chunks []]
  by_cases hj : chunks.flatten = []
  · rw [hj, Buffer.append_nil]
    simp [canonicalLines_nil]
  · rw [append_canonical [] chunks.flatten hj]

/-- C4: appending a byte sequence to the line-indexed buffer is
chunking-invariant: however a sequence is split into successive `Append`
calls (`appendAll`), the resulting `Len`, `NLines` and `Line n` for every
n coincide with those of a single `Append` of the concatenation. -/
theorem C4_chunking_invariant (chunks : List (List Nat)) :
    (appendAll chunks).len = (emptyBuffer.append chunks.flatten).len ∧
    (appendAll chunks).nLines = (emptyBuffer.append chunks.flatten).nLines ∧
    ∀ n : Int, (appendAll chunks).line n = (emptyBuffer.append chunks.flatten).line n := by
  rw [appendAll_eq_single chunks]
  exact ⟨rfl, rfl, fun _ => rfl⟩

/-! ## Lemmas: raw line decomposition -/

theorem specRawLinesF_congr :
    ∀ {f1 f2 : Nat} {l : List Nat}, l.length < f1 → l.length < f2 →
      specRawLinesF f1 l = specRawLinesF f2 l := by
  intro f1
  induction f1 with
  | zero => intro f2 l h1 h2; omega
  | succ k1 ih =>
    intro f2 l h1 h2
    cases f2 with
    | zero => omega
    | succ k2 =>
      cases hnl : indexNL l with
      | none => simp only [specRawLinesF, hnl]
      | some i =>
        have hlt := indexNL_lt_length hnl
        simp only [specRawLinesF, hnl]
        have hd : (l.drop (i + 1)).length < k1 := by
          simp only [List.length_drop]
          omega
        have hd2 : (l.drop (i + 1)).length < k2 := by
          simp only [List.length_drop]
          omega
        rw [ih hd hd2]

theorem specRawLines_some {l : List Nat} {i : Nat} (h : indexNL l = some i) :
    specRawLines l = l.take i :: specRawLines (l.drop (i + 1)) := by
  have hlt := indexNL_lt_length h
  simp only [specRawLines, specRawLinesF, h]
  congr 1
  exact @specRawLinesF_congr (l.length) ((l.drop (i + 1)).length + 1) (l.drop (i + 1))
    (by simp only [List.length_drop]; omega) (by omega)

theorem specRawLines_none {l : List Nat} (h : indexNL l = none) :
    specRawLines l = if l = [] then [] else [l] := by
  simp [specRawLines, specRawLinesF, h]

theorem lastIndexCR_lt {l : List Nat} {i : Nat} (h : lastIndexCR l = some i) :
    i < l.length := by
  induction l generalizing i with
  | nil => simp [lastIndexCR] at h
  | cons b rest ih =>
    simp only [lastIndexCR] at h
    cases hr : lastIndexCR rest with
    | some j =>
      rw [hr] at h
      cases h
      have := ih hr
      simp only [List.length_cons]
      omega
    | none =>
      rw [hr] at h
      by_cases hb : b = 13
      · rw [if_pos hb] at h
        cases h
        simp
      · rw [if_neg hb] at h
        simp at h

theorem indexNL_getD {l : List Nat} {i : Nat} (h : indexNL l = some i) :
    l.getD i 0 = 10 := by
  induction l generalizing i with
  | nil => simp [indexNL] at h
  | cons b rest ih =>
    by_cases hb : b = 10
    · simp only [indexNL, if_pos hb] at h
      cases h
      simpa using hb
    · simp only [indexNL, if_neg hb] at h
      cases hr : indexNL rest with
      | none => rw [hr] at h; simp at h
      | some j =>
        rw [hr] at h
        simp only [Option.map_some'] at h
        cases h
        simpa using ih hr

theorem resumePos_le (buf : List Nat) :
    ∀ pos, pos ≤ buf.length → resumePos buf pos ≤ buf.length := by
  have main : ∀ fuel pos, buf.length - pos < fuel → pos ≤ buf.length →
      resumePos buf pos ≤ buf.length := by
    intro fuel
    induction fuel with
    | zero => intro pos h1 h2; omega
    | succ k ih =>
      intro pos h1 h2
      cases hnl : indexNL (buf.drop pos) with
      | none => rw [resumePos_none hnl]; exact h2
      | some i =>
        have hlt := indexNL_lt_length hnl
        simp only [List.length_drop] at hlt
        rw [resumePos_some hnl]
        exact ih (pos + i + 1) (by omega) (by omega)
  intro pos h
  exact main (buf.length - pos + 1) pos (by omega) h

theorem resumePos_no_nl (buf : List Nat) :
    ∀ pos, pos ≤ buf.length → indexNL (buf.drop (resumePos buf pos)) = none := by
  have main : ∀ fuel pos, buf.length - pos < fuel → pos ≤ buf.length →
      indexNL (buf.drop (resumePos buf pos)) = none := by
    intro fuel
    induction fuel with
    | zero => intro pos h1 h2; omega
    | succ k ih =>
      intro pos h1 h2
      cases hnl : indexNL (buf.drop pos) with
      | none => rw [resumePos_none hnl]; exact hnl
      | some i =>
        have hlt := indexNL_lt_length hnl
        simp only [List.length_drop] at hlt
        rw [resumePos_some hnl]
        exact ih (pos + i + 1) (by omega) (by omega)
  intro pos h
  exact main (buf.length - pos + 1) pos (by omega) h

theorem resumePos_pred_nl (buf : List Nat) :
    ∀ pos, pos ≤ buf.length →
      resumePos buf pos = pos ∨
        (1 ≤ resumePos buf pos ∧ buf.getD (resumePos buf pos - 1) 0 = 10) := by
  have main : ∀ fuel pos, buf.length - pos < fuel → pos ≤ buf.length →
      resumePos buf pos = pos ∨
        (1 ≤ resumePos buf pos ∧ buf.getD (resumePos buf pos - 1) 0 = 10) := by
    intro fuel
    induction fuel with
    | zero => intro pos h1 h2; omega
    | succ k ih =>
      intro pos h1 h2
      cases hnl : indexNL (buf.drop pos) with
      | none => exact Or.inl (resumePos_none hnl)
      | some i =>
        have hlt := indexNL_lt_length hnl
        simp only [List.length_drop] at hlt
        have hnl10 : buf.getD (pos + i) 0 = 10 := by
          have h10 := indexNL_getD hnl
          rw [List.getD_eq_getElem?_getD] at h10 ⊢
          rw [List.getElem?_drop] at h10
          exact h10
        rw [resumePos_some hnl]
        rcases ih (pos + i + 1) (by omega) (by omega) with heq | hpred
        · rw [heq]
          right
          constructor
          · omega
          · simpa using hnl10
        · exact Or.inr hpred
  intro pos h
  exact main (buf.length - pos + 1) pos (by omega) h

theorem getLast?_drop_ne {l : List Nat} :
    ∀ {n : Nat}, l.drop n ≠ [] → (l.drop n).getLast? = l.getLast? := by
  intro n h
  rw [List.getLast?_eq_getElem?, List.getLast?_eq_getElem?]
  rw [List.getElem?_drop]
  congr 1
  simp only [List.length_drop]
  have : n < l.length := by
    by_contra hc
    push_neg at hc
    rw [List.drop_eq_nil_of_le hc] at h
    exact h rfl
  omega

theorem scanLoop_raw (buf : List Nat) :
    ∀ pos, pos ≤ buf.length →
      (scanLoop buf pos).map (fun e => lineSlice buf e.1 e.2.2) ++
        (if buf.drop (resumePos buf pos) = [] then [] else [buf.drop (resumePos buf pos)]) =
      specRawLines (buf.drop pos) := by
  have main : ∀ fuel pos, buf.length - pos < fuel → pos ≤ buf.length →
      (scanLoop buf pos).map (fun e => lineSlice buf e.1 e.2.2) ++
        (if buf.drop (resumePos buf pos) = [] then [] else [buf.drop (resumePos buf pos)]) =
      specRawLines (buf.drop pos) := by
    intro fuel
    induction fuel with
    | zero => intro pos h1 h2; omega
    | succ k ih =>
      intro pos h1 h2
      cases hnl : indexNL (buf.drop pos) with
      | none =>
        rw [scanLoop_none hnl, resumePos_none hnl, specRawLines_none hnl]
        simp
      | some i =>
        have hlt := indexNL_lt_length hnl
        simp only [List.length_drop] at hlt
        rw [scanLoop_some hnl, resumePos_some hnl, specRawLines_some hnl]
        have hdd : (buf.drop pos).drop (i + 1) = buf.drop (pos + i + 1) := by
          rw [List.drop_drop, ← Nat.add_assoc]
        rw [hdd]
        rw [← ih (pos + i + 1) (by omega) (by omega)]
        simp only [List.map_cons, List.cons_append]
        congr 1
        show lineSlice buf (appendLineEntry buf pos (pos + i)).1
            (appendLineEntry buf pos (pos + i)).2.2 = (buf.drop pos).take i
        have h22 : (appendLineEntry buf pos (pos + i)).2.2 = pos + i :=
          appendLineEntry_nl (by omega) (by omega)
        have h11 : (appendLineEntry buf pos (pos + i)).1 = pos := rfl
        rw [h11, h22]
        unfold lineSlice
        congr 1
        omega
  intro pos h
  exact main (buf.length - pos + 1) pos (by omega) h

theorem drop_resume_ne_nil {buf : List Nat} (hb : buf ≠ [])
    (hnl : buf.getLast? ≠ some 10) : buf.drop (resumePos buf 0) ≠ [] := by
  intro hdr
  have hle := resumePos_le buf 0 (Nat.zero_le _)
  have hlen : buf.length ≤ resumePos buf 0 := by
    by_contra hc
    push_neg at hc
    rw [List.drop_eq_nil_iff] at hdr
    omega
  have hr : resumePos buf 0 = buf.length := by omega
  rcases resumePos_pred_nl buf 0 (Nat.zero_le _) with h0 | ⟨h1, h10⟩
  · rw [h0] at hr
    exact hb (List.eq_nil_of_length_eq_zero hr.symm)
  · rw [hr] at h10 h1
    apply hnl
    rw [List.getLast?_eq_getElem?]
    rw [List.getD_eq_getElem?_getD] at h10
    cases hg : buf[buf.length - 1]? with
    | none =>
      rw [hg] at h10
      have : buf.length - 1 < buf.length := by
        cases buf with
        | nil => exact absurd rfl hb
        | cons x xs => simp
      rw [List.getElem?_eq_getElem this] at hg
      simp at hg
    | some v =>
      rw [hg] at h10
      simp only [Option.getD_some] at h10
      rw [h10]

theorem canonical_raw (buf : List Nat) :
    (canonicalLines buf).map (fun e => lineSlice buf e.1 e.2.2) = specRawLines buf := by
  by_cases hb : buf = []
  · subst hb
    have hnone : indexNL ([] : List Nat) = none := rfl
    rw [canonicalLines_nil, specRawLines_none hnone]
    simp
  · have h0 := scanLoop_raw buf 0 (Nat.zero_le _)
    rw [List.drop_zero] at h0
    by_cases hnl : buf.getLast? = some 10
    · have hcan : canonicalLines buf = scanLoop buf 0 := by
        simp [canonicalLines, hb, hnl]
      have hdr : buf.drop (resumePos buf 0) = [] := by
        by_contra hc
        have hg := getLast?_drop_ne hc
        rw [hnl] at hg
        have hmem := mem_of_getLast?_eq hg
        have := resumePos_no_nl buf 0 (Nat.zero_le _)
        exact absurd hmem (indexNL_none_iff.mp this)
      rw [hcan]
      rw [hdr] at h0
      simpa using h0
    · have hcan : canonicalLines buf =
          scanLoop buf 0 ++ [appendLineEntry buf (lastLineEnd (scanLoop buf 0)) buf.length] := by
        simp [canonicalLines, hb, hnl]
      have hr : lastLineEnd (scanLoop buf 0) = resumePos buf 0 :=
        (resumePos_eq_lastLineEndD buf 0 (Nat.zero_le _)).symm
      have hdr := drop_resume_ne_nil hb hnl
      rw [if_neg hdr] at h0
      rw [hcan, List.map_append]
      rw [← h0]
      congr 1
      simp only [List.map_cons, List.map_nil]
      congr 1
      have hle := resumePos_le buf 0 (Nat.zero_le _)
      rw [hr]
      show lineSlice buf (appendLineEntry buf (resumePos buf 0) buf.length).1
          (appendLineEntry buf (resumePos buf 0) buf.length).2.2 = buf.drop (resumePos buf 0)
      have h11 : (appendLineEntry buf (resumePos buf 0) buf.length).1 = resumePos buf 0 := rfl
      have h22 : (appendLineEntry buf (resumePos buf 0) buf.length).2.2 = buf.length :=
        appendLineEntry_nl hle (le_refl _)
      rw [h11, h22]
      unfold lineSlice
      rw [← List.length_drop]
      exact List.take_length _

theorem appendLineEntry_fst (buf : List Nat) (s e : Nat) :
    (appendLineEntry buf s e).1 = s := rfl

theorem appendLineEntry_snd1 (buf : List Nat) (s e : Nat) :
    (appendLineEntry buf s e).2.1 =
      s + (lastIndexCR (lineSlice buf s e)).getD (lineSlice buf s e).length := rfl

theorem appendLineEntry_snd2 (buf : List Nat) (s e : Nat) :
    (appendLineEntry buf s e).2.2 = s + (lineSlice buf s e).length := rfl

theorem lineSlice_length {buf : List Nat} {s e : Nat} (hs : s ≤ e)
    (he : e ≤ buf.length) : (lineSlice buf s e).length = e - s := by
  unfold lineSlice
  simp only [List.length_take, List.length_drop]
  omega

theorem entry_content (buf : List Nat) {s e : Nat} (hs : s ≤ e)
    (he : e ≤ buf.length) :
    lineSlice buf (appendLineEntry buf s e).1 (appendLineEntry buf s e).2.1 =
      contentOfRaw (lineSlice buf (appendLineEntry buf s e).1 (appendLineEntry buf s e).2.2) := by
  have hlen := lineSlice_length hs he
  have hL : (lastIndexCR (lineSlice buf s e)).getD (lineSlice buf s e).length ≤
      (lineSlice buf s e).length := by
    cases hcr : lastIndexCR (lineSlice buf s e) with
    | none => simp
    | some i =>
      simp only [Option.getD_some]
      exact le_of_lt (lastIndexCR_lt hcr)
  rw [appendLineEntry_fst, appendLineEntry_snd1, appendLineEntry_snd2]
  have hinner : lineSlice buf s (s + (lineSlice buf s e).length) = lineSlice buf s e := by
    show (buf.drop s).take (s + (lineSlice buf s e).length - s) = lineSlice buf s e
    rw [hlen]
    unfold lineSlice
    congr 1
    omega
  rw [hinner]
  show (buf.drop s).take
      (s + (lastIndexCR (lineSlice buf s e)).getD (lineSlice buf s e).length - s) =
    (lineSlice buf s e).take ((lastIndexCR (lineSlice buf s e)).getD (lineSlice buf s e).length)
  generalize hq : (lastIndexCR (lineSlice buf s e)).getD (lineSlice buf s e).length = L at hL ⊢
  rw [hlen] at hL
  have hs2 : s + L - s = L := by omega
  rw [hs2]
  conv_rhs => rw [show lineSlice buf s e = (buf.drop s).take (e - s) from rfl]
  rw [List.take_take]
  congr 1
  omega

theorem nl_at {buf : List Nat} {pos i : Nat} (h : indexNL (buf.drop pos) = some i) :
    buf.getD (pos + i) 0 = 10 := by
  have h10 := indexNL_getD h
  rw [List.getD_eq_getElem?_getD] at h10 ⊢
  rw [List.getElem?_drop] at h10
  exact h10

theorem scanLoop_shape (buf : List Nat) :
    ∀ pos, pos ≤ buf.length → ∀ E ∈ scanLoop buf pos,
      ∃ s e, s ≤ e ∧ e ≤ buf.length ∧ E = appendLineEntry buf s e ∧
        buf.getD (appendLineEntry buf s e).2.2 0 = 10 := by
  have main : ∀ fuel pos, buf.length - pos < fuel → pos ≤ buf.length →
      ∀ E ∈ scanLoop buf pos,
        ∃ s e, s ≤ e ∧ e ≤ buf.length ∧ E = appendLineEntry buf s e ∧
          buf.getD (appendLineEntry buf s e).2.2 0 = 10 := by
    intro fuel
    induction fuel with
    | zero => intro pos h1 h2; omega
    | succ k ih =>
      intro pos h1 h2 E hE
      cases hnl : indexNL (buf.drop pos) with
      | none =>
        rw [scanLoop_none hnl] at hE
        simp at hE
      | some i =>
        have hlt := indexNL_lt_length hnl
        simp only [List.length_drop] at hlt
        rw [scanLoop_some hnl] at hE
        rcases List.mem_cons.mp hE with hE | hE
        · refine ⟨pos, pos + i, by omega, by omega, hE, ?_⟩
          rw [appendLineEntry_nl (by omega) (by omega)]
          exact nl_at hnl
        · exact ih (pos + i + 1) (by omega) (by omega) E hE
  intro pos h
  exact main (buf.length - pos + 1) pos (by omega) h

theorem scanLoop_head_start {buf : List Nat} {pos : Nat} {E : LineEntry}
    {tail : List LineEntry} (h : scanLoop buf pos = E :: tail) : E.1 = pos := by
  cases hnl : indexNL (buf.drop pos) with
  | none => rw [scanLoop_none hnl] at h; exact absurd h (by simp)
  | some i =>
    rw [scanLoop_some hnl] at h
    cases h
    rfl

theorem scanLoop_chain (buf : List Nat) :
    ∀ pos, pos ≤ buf.length → ∀ j, j + 1 < (scanLoop buf pos).length →
      ((scanLoop buf pos).getD (j + 1) (0, 0, 0)).1 =
        ((scanLoop buf pos).getD j (0, 0, 0)).2.2 + 1 := by
  have main : ∀ fuel pos, buf.length - pos < fuel → pos ≤ buf.length →
      ∀ j, j + 1 < (scanLoop buf pos).length →
        ((scanLoop buf pos).getD (j + 1) (0, 0, 0)).1 =
          ((scanLoop buf pos).getD j (0, 0, 0)).2.2 + 1 := by
    intro fuel
    induction fuel with
    | zero => intro pos h1 h2; omega
    | succ k ih =>
      intro pos h1 h2 j hj
      cases hnl : indexNL (buf.drop pos) with
      | none =>
        rw [scanLoop_none hnl] at hj
        simp at hj
      | some i =>
        have hlt := indexNL_lt_length hnl
        simp only [List.length_drop] at hlt
        rw [scanLoop_some hnl] at hj ⊢
        cases j with
        | zero =>
          simp only [List.getD_cons_zero, List.getD_cons_succ]
          simp only [List.length_cons] at hj
          have htne : scanLoop buf (pos + i + 1) ≠ [] := by
            intro hc
            rw [hc] at hj
            simp at hj
          cases ht : scanLoop buf (pos + i + 1) with
          | nil => exact absurd ht htne
          | cons E' tail' =>
            simp only [List.getD_cons_zero]
            rw [scanLoop_head_start ht]
            rw [appendLineEntry_nl (by omega) (by omega)]
        | succ j' =>
          simp only [List.getD_cons_succ]
          simp only [List.length_cons] at hj
          exact ih (pos + i + 1) (by omega) (by omega) j' (by omega)
  intro pos h
  exact main (buf.length - pos + 1) pos (by omega) h

theorem getD_append_left {ls l2 : List LineEntry} {k : Nat} (h : k < ls.length)
    (d : LineEntry) : (ls ++ l2).getD k d = ls.getD k d := by
  rw [List.getD_eq_getElem?_getD, List.getD_eq_getElem?_getD]
  rw [List.getElem?_append_left h]

theorem getD_singleton_append {ls : List LineEntry} {T d : LineEntry} :
    (ls ++ [T]).getD ls.length d = T := by
  rw [List.getD_eq_getElem?_getD]
  rw [List.getElem?_append_right (le_refl _)]
  simp

theorem getD_last {ls : List LineEntry} (h : ls ≠ []) (d : LineEntry) :
    ls.getLast? = some (ls.getD (ls.length - 1) d) := by
  rw [List.getLast?_eq_getElem?]
  have hlen : 0 < ls.length := List.length_pos.mpr h
  rw [List.getD_eq_getElem?_getD]
  rw [List.getElem?_eq_getElem (by omega)]
  simp

theorem canonical_shape (buf : List Nat) :
    ∀ E ∈ canonicalLines buf, ∃ s e, s ≤ e ∧ e ≤ buf.length ∧
      E = appendLineEntry buf s e := by
  intro E hE
  by_cases hb : buf = []
  · subst hb
    rw [canonicalLines_nil] at hE
    simp at hE
  · by_cases hnl : buf.getLast? = some 10
    · have hcan : canonicalLines buf = scanLoop buf 0 := by
        simp [canonicalLines, hb, hnl]
      rw [hcan] at hE
      rcases scanLoop_shape buf 0 (Nat.zero_le _) E hE with ⟨s, e, hs, he, hEe, _⟩
      exact ⟨s, e, hs, he, hEe⟩
    · have hcan : canonicalLines buf =
          scanLoop buf 0 ++ [appendLineEntry buf (lastLineEnd (scanLoop buf 0)) buf.length] := by
        simp [canonicalLines, hb, hnl]
      rw [hcan] at hE
      rcases List.mem_append.mp hE with hE | hE
      · rcases scanLoop_shape buf 0 (Nat.zero_le _) E hE with ⟨s, e, hs, he, hEe, _⟩
        exact ⟨s, e, hs, he, hEe⟩
      · have hT : E = appendLineEntry buf (lastLineEnd (scanLoop buf 0)) buf.length := by
          simpa using hE
        refine ⟨lastLineEnd (scanLoop buf 0), buf.length, ?_, le_refl _, hT⟩
        show lastLineEndD 0 (scanLoop buf 0) ≤ buf.length
        rw [← resumePos_eq_lastLineEndD buf 0 (Nat.zero_le _)]
        exact resumePos_le buf 0 (Nat.zero_le _)

theorem canonical_mem_nl (buf : List Nat) :
    ∀ j, j + 1 < (canonicalLines buf).length →
      buf.getD (((canonicalLines buf).getD j (0, 0, 0)).2.2) 0 = 10 := by
  intro j hj
  have hjl : j < (canonicalLines buf).length := by omega
  have hmem : (canonicalLines buf).getD j (0, 0, 0) ∈ canonicalLines buf := by
    rw [List.getD_eq_getElem (canonicalLines buf) (0, 0, 0) hjl]
    exact List.getElem_mem hjl
  by_cases hb : buf = []
  · subst hb
    rw [canonicalLines_nil] at hj
    simp at hj
  · by_cases hnl : buf.getLast? = some 10
    · have hcan : canonicalLines buf = scanLoop buf 0 := by
        simp [canonicalLines, hb, hnl]
      rw [hcan] at hmem ⊢
      rcases scanLoop_shape buf 0 (Nat.zero_le _) _ hmem with ⟨s, e, hs, he, hEe, h10⟩
      rw [hEe]
      exact h10
    · have hcan : canonicalLines buf =
          scanLoop buf 0 ++ [appendLineEntry buf (lastLineEnd (scanLoop buf 0)) buf.length] := by
        simp [canonicalLines, hb, hnl]
      have hjls : j < (scanLoop buf 0).length := by
        rw [hcan] at hj
        simp only [List.length_append, List.length_cons, List.length_nil] at hj
        omega
      have hgd : (canonicalLines buf).getD j (0, 0, 0) = (scanLoop buf 0).getD j (0, 0, 0) := by
        rw [hcan]
        exact getD_append_left hjls (0, 0, 0)
      have hmem2 : (scanLoop buf 0).getD j (0, 0, 0) ∈ scanLoop buf 0 := by
        rw [List.getD_eq_getElem (scanLoop buf 0) (0, 0, 0) hjls]
        exact List.getElem_mem hjls
      rcases scanLoop_shape buf 0 (Nat.zero_le _) _ hmem2 with ⟨s, e, hs, he, hEe, h10⟩
      rw [hgd, hEe]
      exact h10

theorem canonical_chain (buf : List Nat) :
    ∀ j, j + 1 < (canonicalLines buf).length →
      ((canonicalLines buf).getD (j + 1) (0, 0, 0)).1 =
        ((canonicalLines buf).getD j (0, 0, 0)).2.2 + 1 := by
  intro j hj
  by_cases hb : buf = []
  · subst hb
    rw [canonicalLines_nil] at hj
    simp at hj
  · by_cases hnl : buf.getLast? = some 10
    · have hcan : canonicalLines buf = scanLoop buf 0 := by
        simp [canonicalLines, hb, hnl]
      rw [hcan] at hj ⊢
      exact scanLoop_chain buf 0 (Nat.zero_le _) j hj
    · have hcan : canonicalLines buf =
          scanLoop buf 0 ++ [appendLineEntry buf (lastLineEnd (scanLoop buf 0)) buf.length] := by
        simp [canonicalLines, hb, hnl]
      rw [hcan] at hj ⊢
      simp only [List.length_append, List.length_cons, List.length_nil] at hj
      have hjls : j < (scanLoop buf 0).length := by omega
      rw [getD_append_left hjls]
      by_cases hj1 : j + 1 < (scanLoop buf 0).length
      · rw [getD_append_left hj1]
        exact scanLoop_chain buf 0 (Nat.zero_le _) j hj1
      · have hj1e : j + 1 = (scanLoop buf 0).length := by omega
        have hlsne : scanLoop buf 0 ≠ [] := by
          intro hc
          rw [hc] at hjls
          simp at hjls
        rw [show j + 1 = (scanLoop buf 0).length from hj1e]
        rw [getD_singleton_append]
        rw [appendLineEntry_fst]
        have hgl := getD_last hlsne (0, 0, 0)
        unfold lastLineEnd lastLineEndD
        rw [hgl]
        have : (scanLoop buf 0).length - 1 = j := by omega
        rw [this]

theorem append_empty_canonical (buf : List Nat) :
    emptyBuffer.append buf = ⟨buf, canonicalLines buf⟩ := by
  by_cases hb : buf = []
  · subst hb
    rw [Buffer.append_nil]
    rw [canonicalLines_nil]
    rfl
  · have h0 : emptyBuffer = ⟨[], canonicalLines []⟩ := by
      rw [canonicalLines_nil]
      rfl
    rw [h0, append_canonical [] buf hb]
    simp

/-- C5 counterexample: for the bytes of the line a CR b (a carriage return
that is not trailing), `Line 0` returns only the byte before the carriage
return, not the line with the inner CR preserved as the claim states. -/
theorem C5_inner_cr_counterexample :
    (emptyBuffer.append [97, 13, 98, 10]).line 0 = [97] ∧
      (emptyBuffer.append [97, 13, 98, 10]).line 0 ≠ [97, 13, 98] := by
  decide

/-- C5 amended: `Line n` returns the bytes of the n-th raw line (newline
terminator excluded) truncated at the line's last carriage return when one
occurs (so everything from the last CR onward is excluded, not only one
trailing CR); and the raw span always continues one byte past the
newline: each entry's successor starts at rawEnd + 1 and the byte at
rawEnd is the newline. -/
theorem C5_line_content_amended (buf : List Nat) :
    (emptyBuffer.append buf).nLines = (specRawLines buf).length ∧
    (∀ n : Nat, n < (specRawLines buf).length →
      (emptyBuffer.append buf).line (n : Int) =
        contentOfRaw ((specRawLines buf).getD n [])) ∧
    (∀ j : Nat, j + 1 < (emptyBuffer.append buf).nLines →
      ((emptyBuffer.append buf).lines.getD (j + 1) (0, 0, 0)).1 =
          ((emptyBuffer.append buf).lines.getD j (0, 0, 0)).2.2 + 1 ∧
        buf.getD (((emptyBuffer.append buf).lines.getD j (0, 0, 0)).2.2) 0 = 10) := by
  rw [append_empty_canonical buf]
  have hlen : (canonicalLines buf).length = (specRawLines buf).length := by
    rw [← canonical_raw buf]
    simp
  refine ⟨hlen, ?_, ?_⟩
  · intro n hn
    have hnlen : n < (canonicalLines buf).length := by omega
    show Buffer.line ⟨buf, canonicalLines buf⟩ n = _
    unfold Buffer.line
    rw [if_neg]
    · simp only [Int.toNat_natCast]
      have hsome : (canonicalLines buf)[n]? = some ((canonicalLines buf).getD n (0, 0, 0)) := by
        rw [List.getD_eq_getElem (canonicalLines buf) (0, 0, 0) hnlen]
        exact List.getElem?_eq_getElem hnlen
      have hraw : (specRawLines buf).getD n [] =
          lineSlice buf ((canonicalLines buf).getD n (0, 0, 0)).1
            ((canonicalLines buf).getD n (0, 0, 0)).2.2 := by
        rw [← canonical_raw buf]
        rw [List.getD_eq_getElem?_getD]
        rw [List.getElem?_map]
        rw [hsome]
        rfl
      rw [hraw]
      have hmem : (canonicalLines buf).getD n (0, 0, 0) ∈ canonicalLines buf := by
        rw [List.getD_eq_getElem (canonicalLines buf) (0, 0, 0) hnlen]
        exact List.getElem_mem hnlen
      rcases canonical_shape buf _ hmem with ⟨s, e, hs, he, hEe⟩
      rw [hEe]
      exact entry_content buf hs he
    · push_neg
      constructor
      · exact Int.natCast_nonneg n
      · show ((canonicalLines buf).length : Int) > (n : Int)
        exact_mod_cast hnlen
  · intro j hj
    have hj2 : j + 1 < (canonicalLines buf).length := hj
    exact ⟨canonical_chain buf j hj2, canonical_mem_nl buf j hj2⟩

/-- Witness for the amended C5 at the concrete bytes a CR b LF x. -/
theorem C5_line_content_amended_witness :
    0 < (specRawLines [97, 13, 98, 10, 120]).length ∧
      (emptyBuffer.append [97, 13, 98, 10, 120]).line ((0 : Nat) : Int) =
        contentOfRaw ((specRawLines [97, 13, 98, 10, 120]).getD 0 []) :=
  ⟨by decide, (C5_line_content_amended [97, 13, 98, 10, 120]).2.1 0 (by decide)⟩

/-- C8 counterexample: a read at an offset beyond the buffered range does
not return an empty result; it faults (the Go slice expression buf[off:]
with off beyond the length raises a runtime error, modelled as none). -/
theorem C8_readAt_out_of_range_counterexample :
    Buffer.readAt emptyBuffer 4 1 = none := by decide

/-- C8 amended: an out-of-range `Line n` (negative or at least NLines)
returns the empty result without failing, and `ReadAt` is fault-free and
returns the available bytes for every offset within the buffered range
0 to Len; an offset outside that range faults instead of returning an
empty result. -/
theorem C8_invalid_queries_amended (b : Buffer) :
    (∀ n : Int, (n < 0 ∨ (b.nLines : Int) ≤ n) → b.line n = []) ∧
    (∀ cap : Nat, ∀ off : Int, 0 ≤ off → off ≤ (b.len : Int) →
      b.readAt cap off = some ((b.buf.drop off.toNat).take cap)) := by
  constructor
  · intro n hn
    unfold Buffer.line
    rw [if_pos]
    exact hn
  · intro cap off h0 h1
    unfold Buffer.readAt
    rw [if_neg]
    push_neg
    refine ⟨h0, ?_⟩
    show (b.buf.length : Int) ≥ off
    exact h1

/-- Witness for the amended C8: line 5 of an empty buffer is empty, and a
read at offset 0 succeeds with no bytes. -/
theorem C8_invalid_queries_amended_witness :
    ((5 : Int) < 0 ∨ ((emptyBuffer.nLines : Nat) : Int) ≤ 5) ∧
      emptyBuffer.line 5 = [] ∧
      emptyBuffer.readAt 3 0 = some [] := by
  refine ⟨by decide, ?_, ?_⟩
  · exact (C8_invalid_queries_amended emptyBuffer).1 5 (by decide)
  · have h := (C8_invalid_queries_amended emptyBuffer).2 3 0 (by decide) (by decide)
    simpa using h

/-! ## Lemmas: controller loops -/

theorem growLoop_append (k : Nat) :
    ∀ pagers n, ∃ ext : List Pager,
      (growLoop k pagers n).1 = pagers ++ ext ∧ ext.length = k ∧
      (growLoop k pagers n).2 = n + k := by
  induction k with
  | zero => intro pagers n; exact ⟨[], by simp [growLoop], rfl, rfl⟩
  | succ k ih =>
    intro pagers n
    rcases ih (pagers ++ [(newEmptyPager n).1]) ((newEmptyPager n).2) with ⟨ext, hext, hlen, hn⟩
    refine ⟨(newEmptyPager n).1 :: ext, ?_, ?_, ?_⟩
    · show (growLoop k (pagers ++ [(newEmptyPager n).1]) (newEmptyPager n).2).1 = _
      rw [hext]
      simp
    · simp [hlen]
    · show (growLoop k (pagers ++ [(newEmptyPager n).1]) (newEmptyPager n).2).2 = n + (k + 1)
      rw [hn]
      show n + 1 + k = n + (k + 1)
      omega

theorem take_set_of_le {l : List Pager} {i j : Nat} {a : Pager} (h : j ≤ i) :
    (l.set i a).take j = l.take j := by
  apply List.ext_getElem?
  intro k
  by_cases hk : k < j
  · rw [List.getElem?_take, if_pos hk, List.getElem?_take, if_pos hk]
    rw [List.getElem?_set]
    rw [if_neg (by omega)]
  · rw [List.getElem?_take, if_neg hk, List.getElem?_take, if_neg hk]

theorem getD_take_lt {l : List Pager} {m j : Nat} (h : j < m) (d : Pager) :
    (l.take m).getD j d = l.getD j d := by
  rw [List.getD_eq_getElem?_getD, List.getD_eq_getElem?_getD]
  rw [List.getElem?_take, if_pos h]

theorem getD_set_self {l : List Pager} {i : Nat} {a : Pager} (h : i < l.length)
    (d : Pager) : (l.set i a).getD i d = a := by
  rw [List.getD_eq_getElem?_getD, List.getElem?_set, if_pos rfl]
  simp [h]

theorem getD_set_ne {l : List Pager} {i j : Nat} {a : Pager} (h : i ≠ j)
    (d : Pager) : (l.set i a).getD j d = l.getD j d := by
  rw [List.getD_eq_getElem?_getD, List.getElem?_set, if_neg h]
  rw [List.getD_eq_getElem?_getD]

theorem newCommandPager_sndv (r : Nat) (c : Command) (n : Nat) :
    (newCommandPager r c n).2 = n + 1 := by
  unfold newCommandPager newEmptyPager newPager
  split <;> rfl

theorem rebuildLoop_length (k : Nat) :
    ∀ pagers commands i n,
      (rebuildLoop k pagers commands i n).1.length = pagers.length := by
  induction k with
  | zero => intro pagers commands i n; rfl
  | succ k ih =>
    intro pagers commands i n
    simp only [rebuildLoop]
    rw [ih]
    simp

theorem rebuildLoop_take (k : Nat) :
    ∀ pagers commands i n,
      (rebuildLoop k pagers commands i n).1.take i = pagers.take i := by
  induction k with
  | zero => intro pagers commands i n; rfl
  | succ k ih =>
    intro pagers commands i n
    simp only [rebuildLoop]
    have h1 : ∀ l : List Pager, l.take i = (l.take (i + 1)).take i := by
      intro l
      rw [List.take_take]
      congr 1
      omega
    rw [h1]
    rw [ih]
    rw [← h1]
    exact take_set_of_le (le_refl i)

theorem rebuildLoop_closed (k : Nat) :
    ∀ pagers commands i n, i + k = pagers.length →
      (rebuildLoop k pagers commands i n).2.2 = (pagers.drop i).map (fun p => p.shared) := by
  induction k with
  | zero =>
    intro pagers commands i n h
    have hd : pagers.drop i = [] := by
      rw [List.drop_eq_nil_iff]
      omega
    rw [hd]
    rfl
  | succ k ih =>
    intro pagers commands i n h
    have hi : i < pagers.length := by omega
    simp only [rebuildLoop]
    rw [ih _ commands (i + 1) _ (by simp only [List.length_set]; omega)]
    rw [List.drop_set_of_lt _ _ (by omega : i < i + 1)]
    rw [List.drop_eq_getElem_cons hi]
    simp only [List.map_cons]
    rw [List.getD_eq_getElem pagers default hi]

theorem rebuildLoop_getD (k : Nat) :
    ∀ pagers commands i n, i + k = pagers.length → 1 ≤ i →
      ∀ j, i ≤ j → j < pagers.length →
        ((rebuildLoop k pagers commands i n).1.getD j default) =
          (newCommandPager
            (((rebuildLoop k pagers commands i n).1.getD (j - 1) default).shared)
            (commands.getD (j - 1) default) (n + (j - i))).1 := by
  induction k with
  | zero => intro pagers commands i n h h1 j hij hj; omega
  | succ k ih =>
    intro pagers commands i n h h1 j hij hj
    have hi : i < pagers.length := by omega
    simp only [rebuildLoop]
    by_cases hji : j = i
    · subst hji
      have hrt := rebuildLoop_take k
        (pagers.set j (newCommandPager (pagers.getD (j - 1) default).shared
          (commands.getD (j - 1) default) n).1) commands (j + 1)
        (newCommandPager (pagers.getD (j - 1) default).shared
          (commands.getD (j - 1) default) n).2
      have hgd : ((rebuildLoop k
          (pagers.set j (newCommandPager (pagers.getD (j - 1) default).shared
            (commands.getD (j - 1) default) n).1) commands (j + 1)
          (newCommandPager (pagers.getD (j - 1) default).shared
            (commands.getD (j - 1) default) n).2).1.getD j default) =
          (newCommandPager (pagers.getD (j - 1) default).shared
            (commands.getD (j - 1) default) n).1 := by
        rw [← getD_take_lt (by omega : j < j + 1) default]
        rw [hrt]
        rw [getD_take_lt (by omega : j < j + 1) default]
        exact getD_set_self hi default
      rw [hgd]
      have hprev : ((rebuildLoop k
          (pagers.set j (newCommandPager (pagers.getD (j - 1) default).shared
            (commands.getD (j - 1) default) n).1) commands (j + 1)
          (newCommandPager (pagers.getD (j - 1) default).shared
            (commands.getD (j - 1) default) n).2).1.getD (j - 1) default) =
          pagers.getD (j - 1) default := by
        rw [← getD_take_lt (by omega : j - 1 < j + 1) default]
        rw [hrt]
        rw [getD_take_lt (by omega : j - 1 < j + 1) default]
        exact getD_set_ne (by omega) default
      rw [hprev]
      have hnn : n + (j - j) = n := by omega
      rw [hnn]
    · have hij2 : i + 1 ≤ j := by omega
      rw [ih _ commands (i + 1) _ (by simp only [List.length_set]; omega) (by omega) j hij2
          (by simp only [List.length_set]; omega)]
      have harith : (newCommandPager (pagers.getD (i - 1) default).shared
          (commands.getD (i - 1) default) n).2 + (j - (i + 1)) = n + (j - i) := by
        rw [newCommandPager_sndv]
        omega
      rw [harith]

/-! ## Lemmas: the diverge index scan -/

theorem findRebuildIdxAux_range (pagers : List Pager) (commands : List Command) :
    ∀ i0, findRebuildIdxAux pagers commands i0 = -1 ∨
      (1 ≤ findRebuildIdxAux pagers commands i0 ∧
        (i0 : Int) ≤ findRebuildIdxAux pagers commands i0) := by
  induction pagers with
  | nil => intro i0; left; rfl
  | cons p rest ih =>
    intro i0
    by_cases h0 : i0 = 0
    · subst h0
      simp only [findRebuildIdxAux, if_pos rfl, Nat.zero_add]
      rcases ih 1 with h | ⟨ha, hb⟩
      · exact Or.inl h
      · exact Or.inr ⟨ha, by omega⟩
    · simp only [findRebuildIdxAux, if_neg h0]
      by_cases heq : (p.command.equal (commands.getD (i0 - 1) default)) = true
      · rw [if_neg (by simpa using heq)]
        rcases ih (i0 + 1) with h | ⟨ha, hb⟩
        · exact Or.inl h
        · refine Or.inr ⟨ha, by omega⟩
      · rw [if_pos (by simpa using heq)]
        right
        constructor
        · exact_mod_cast Nat.one_le_iff_ne_zero.mpr h0
        · exact le_refl _

theorem findRebuildIdxAux_none (commands : List Command) :
    ∀ (pagers : List Pager) i0, findRebuildIdxAux pagers commands i0 = -1 →
      ∀ j, j < pagers.length → 1 ≤ i0 + j →
        ((pagers.getD j default).command.equal (commands.getD (i0 + j - 1) default)) = true := by
  intro pagers
  induction pagers with
  | nil => intro i0 h j hj; simp at hj
  | cons p rest ih =>
    intro i0 h j hj h1j
    by_cases h0 : i0 = 0
    · subst h0
      simp only [findRebuildIdxAux, if_pos rfl] at h
      cases j with
      | zero => omega
      | succ j' =>
        have := ih 1 h j' (by simpa using hj) (by omega)
        simpa using this
    · simp only [findRebuildIdxAux, if_neg h0] at h
      by_cases heq : (p.command.equal (commands.getD (i0 - 1) default)) = true
      · rw [if_neg (by simpa using heq)] at h
        cases j with
        | zero => simpa using heq
        | succ j' =>
          have := ih (i0 + 1) h j' (by simpa using hj) (by omega)
          have harr : i0 + 1 + j' - 1 = i0 + (j' + 1) - 1 := by omega
          rw [harr] at this
          simpa using this
      · rw [if_pos (by simpa using heq)] at h
        exfalso
        have : (0 : Int) ≤ (i0 : Int) := Int.natCast_nonneg i0
        omega

theorem findRebuildIdxAux_found (commands : List Command) :
    ∀ (pagers : List Pager) i0 (d : Int), findRebuildIdxAux pagers commands i0 = d → 0 < d →
      i0 ≤ d.toNat ∧ d.toNat - i0 < pagers.length ∧
      ((pagers.getD (d.toNat - i0) default).command.equal
        (commands.getD (d.toNat - 1) default)) = false ∧
      ∀ j, j < pagers.length → 1 ≤ i0 + j → i0 + j < d.toNat →
        ((pagers.getD j default).command.equal (commands.getD (i0 + j - 1) default)) = true := by
  intro pagers
  induction pagers with
  | nil =>
    intro i0 d h h0
    rw [show findRebuildIdxAux [] commands i0 = -1 from rfl] at h
    omega
  | cons p rest ih =>
    intro i0 d h h0
    by_cases hz : i0 = 0
    · subst hz
      simp only [findRebuildIdxAux, if_pos rfl] at h
      rcases ih 1 d h h0 with ⟨ha, hb, hc, hd⟩
      refine ⟨by omega, by simp only [List.length_cons]; omega, ?_, ?_⟩
      · have : (p :: rest).getD (d.toNat - 0) default = rest.getD (d.toNat - 1) default := by
          have h1 : 1 ≤ d.toNat := ha
          rw [show d.toNat - 0 = (d.toNat - 1) + 1 by omega]
          simp
        rw [this]
        exact hc
      · intro j hj h1j hjd
        cases j with
        | zero => omega
        | succ j' =>
          have := hd j' (by simpa using hj) (by omega) (by omega)
          have harr : 1 + j' - 1 = 0 + (j' + 1) - 1 := by omega
          rw [harr] at this
          simpa using this
    · simp only [findRebuildIdxAux, if_neg hz] at h
      by_cases heq : (p.command.equal (commands.getD (i0 - 1) default)) = true
      · rw [if_neg (by simpa using heq)] at h
        rcases ih (i0 + 1) d h h0 with ⟨ha, hb, hc, hd⟩
        refine ⟨by omega, by simp only [List.length_cons]; omega, ?_, ?_⟩
        · have : (p :: rest).getD (d.toNat - i0) default =
              rest.getD (d.toNat - (i0 + 1)) default := by
            rw [show d.toNat - i0 = (d.toNat - (i0 + 1)) + 1 by omega]
            simp
          rw [this]
          exact hc
        · intro j hj h1j hjd
          cases j with
          | zero =>
            simp only [List.getD_cons_zero]
            have : i0 + 0 - 1 = i0 - 1 := by omega
            rw [this]
            exact heq
          | succ j' =>
            have := hd j' (by simpa using hj) (by omega) (by omega)
            have harr : i0 + 1 + j' - 1 = i0 + (j' + 1) - 1 := by omega
            rw [harr] at this
            simpa using this
      · rw [if_pos (by simpa using heq)] at h
        have hdi : d = (i0 : Int) := h.symm
        subst hdi
        have hto : ((i0 : Int)).toNat = i0 := Int.toNat_natCast i0
        refine ⟨by omega, by simp only [List.length_cons]; omega, ?_, ?_⟩
        · rw [hto]
          have : i0 - i0 = 0 := by omega
          rw [this]
          simp only [List.getD_cons_zero]
          simpa using heq
        · intro j hj h1j hjd
          rw [hto] at hjd
          omega

theorem findRebuildIdx_found (pagers : List Pager) (commands : List Command)
    (h0 : 0 < findRebuildIdx pagers commands) :
    1 ≤ (findRebuildIdx pagers commands).toNat ∧
    (findRebuildIdx pagers commands).toNat < pagers.length ∧
    ((pagers.getD (findRebuildIdx pagers commands).toNat default).command.equal
      (commands.getD ((findRebuildIdx pagers commands).toNat - 1) default)) = false ∧
    ∀ j, 1 ≤ j → j < (findRebuildIdx pagers commands).toNat →
      ((pagers.getD j default).command.equal (commands.getD (j - 1) default)) = true := by
  rcases findRebuildIdxAux_found commands pagers 0 (findRebuildIdx pagers commands) rfl h0 with
    ⟨ha, hb, hc, hd⟩
  refine ⟨?_, by omega, ?_, ?_⟩
  · rcases findRebuildIdxAux_range pagers commands 0 with h | ⟨h1, _⟩
    · rw [findRebuildIdx] at h0; omega
    · rw [findRebuildIdx] at h0 ⊢; omega
  · have : (findRebuildIdx pagers commands).toNat - 0 =
        (findRebuildIdx pagers commands).toNat := by omega
    rw [← this]
    exact hc
  · intro j h1j hjd
    have hjlen : j < pagers.length := by omega
    have := hd j hjlen (by omega) (by omega)
    have harr : 0 + j - 1 = j - 1 := by omega
    rw [harr] at this
    exact this

theorem findRebuildIdx_neg (pagers : List Pager) (commands : List Command)
    (h : ¬ 0 < findRebuildIdx pagers commands) :
    ∀ j, 1 ≤ j → j < pagers.length →
      ((pagers.getD j default).command.equal (commands.getD (j - 1) default)) = true := by
  intro j h1j hj
  have hm1 : findRebuildIdxAux pagers commands 0 = -1 := by
    rcases findRebuildIdxAux_range pagers commands 0 with hh | ⟨h1, _⟩
    · exact hh
    · rw [findRebuildIdx] at h; omega
  have := findRebuildIdxAux_none commands pagers 0 hm1 j hj (by omega)
  have harr : 0 + j - 1 = j - 1 := by omega
  rw [harr] at this
  exact this

theorem newCommandPager_equal (r : Nat) (c : Command) (n : Nat) :
    ((newCommandPager r c n).1).command.equal c = true := by
  unfold newCommandPager newEmptyPager newPager
  by_cases hc : c.empty
  · rw [if_pos hc]
    have : c.argv = [] := by
      unfold Command.empty at hc
      exact List.isEmpty_iff.mp hc
    simp [Command.equal, this]
    rfl
  · rw [if_neg hc]
    simp [Command.equal]

theorem getElem?_zero_take {l : List Pager} {k : Nat} (h : 0 < k) :
    (l.take k)[0]? = l[0]? := by
  rw [List.getElem?_take, if_pos h]

theorem Buffer.append_buf (b : Buffer) (p : List Nat) :
    (b.append p).buf = b.buf ++ p := by
  unfold Buffer.append
  split
  · simp [*]
  · rfl

/-! ## Claim theorems: stream sharing -/

/-- C1: evaluation of the code at the failing input.  Over a fresh Shared
source whose underlying stream yields the two bytes a b, the first Read
fetches and returns both bytes yet leaves the cursor offset at 0 (the
fetch path of Reader.Read never advances off), so a second Read serves the
very same two bytes again from the cache; the concatenation of the
returned bytes duplicates data instead of being a contiguous prefix of the
stream, refuting the claimed offset invariant. -/
theorem C1_offset_not_advanced :
    (Reader.read ⟨0⟩ ⟨emptyBuffer, [([97, 98], none)]⟩ 2).1 = ([97, 98], none) ∧
    (Reader.read ⟨0⟩ ⟨emptyBuffer, [([97, 98], none)]⟩ 2).2.1.off = 0 ∧
    (Reader.read (Reader.read ⟨0⟩ ⟨emptyBuffer, [([97, 98], none)]⟩ 2).2.1
        (Reader.read ⟨0⟩ ⟨emptyBuffer, [([97, 98], none)]⟩ 2).2.2 2).1 =
      ([97, 98], none) ∧
    (Reader.read (Reader.read ⟨0⟩ ⟨emptyBuffer, [([97, 98], none)]⟩ 2).2.1
        (Reader.read ⟨0⟩ ⟨emptyBuffer, [([97, 98], none)]⟩ 2).2.2 2).2.1.off = 2 := by
  decide

/-- C9: an underlying stream error is handed to the calling cursor's read
together with the bytes of that read (which are appended to the cache),
and no error state is recorded in the Shared source: any later read whose
offset is not covered by the buffer performs a fresh underlying read and
observes the next terminal result itself. -/
theorem C9_stream_error_not_cached (s : Shared) (off1 cap1 : Nat)
    (c1 c2 : List Nat) (e1 e2 : StreamErr) (rest : List (List Nat × Option StreamErr))
    (hp : s.pending = (c1, some e1) :: (c2, some e2) :: rest)
    (h1 : ¬ off1 < s.buf.len) :
    (Reader.read ⟨off1⟩ s cap1).1 = (c1.take cap1, some e1) ∧
    ((Reader.read ⟨off1⟩ s cap1).2.2).buf.buf = s.buf.buf ++ c1.take cap1 ∧
    ((Reader.read ⟨off1⟩ s cap1).2.2).pending = (c2, some e2) :: rest ∧
    ∀ off2 cap2 : Nat, ¬ off2 < ((Reader.read ⟨off1⟩ s cap1).2.2).buf.len →
      (Reader.read ⟨off2⟩ ((Reader.read ⟨off1⟩ s cap1).2.2) cap2).1.2 = some e2 := by
  have hread : Reader.read ⟨off1⟩ s cap1 =
      ((c1.take cap1, some e1), ⟨off1⟩,
        ⟨if 0 < (c1.take cap1).length then s.buf.append (c1.take cap1) else s.buf,
          (c2, some e2) :: rest⟩) := by
    unfold Reader.read
    rw [if_neg h1, if_neg h1, hp]
  refine ⟨?_, ?_, ?_, ?_⟩
  · rw [hread]
  · rw [hread]
    show (if 0 < (c1.take cap1).length then s.buf.append (c1.take cap1) else s.buf).buf =
      s.buf.buf ++ c1.take cap1
    split
    · exact Buffer.append_buf s.buf (c1.take cap1)
    · have hnil : c1.take cap1 = [] := by
        rw [← List.length_eq_zero]
        omega
      rw [hnil]
      simp
  · rw [hread]
  · intro off2 cap2 h2
    rw [hread] at h2 ⊢
    unfold Reader.read
    rw [if_neg h2, if_neg h2]

/-- Witness for C9 against a stream that has already ended: two successive
cursors each observe the end-of-stream condition from a fresh underlying
read. -/
theorem C9_stream_error_not_cached_witness :
    (Reader.read ⟨0⟩ ⟨emptyBuffer, [([], some StreamErr.eof), ([], some StreamErr.eof)]⟩ 1).1 =
      ([], some StreamErr.eof) ∧
    (Reader.read ⟨0⟩
      ((Reader.read ⟨0⟩ ⟨emptyBuffer,
        [([], some StreamErr.eof), ([], some StreamErr.eof)]⟩ 1).2.2) 1).1.2 =
      some StreamErr.eof := by
  have h := C9_stream_error_not_cached
    ⟨emptyBuffer, [([], some StreamErr.eof), ([], some StreamErr.eof)]⟩ 0 1
    [] [] StreamErr.eof StreamErr.eof [] rfl (by decide)
  refine ⟨?_, ?_⟩
  · have := h.1
    simpa using this
  · exact h.2.2.2 0 1 (by decide)

/-! ## Claim theorems: controller -/

/-- C2: evaluation of the code at the failing edit sequence.  Starting
from the initial model, an edit to a four-command pipeline focused on the
last stage sets the window to stages 2..4; a following edit that clears
the text shrinks the stage list to the single input stage, and the
slide-left branch then sets maxPager to min(minPager + maxPagers - 1,
len(pagers)) = 1, which exceeds len(stages) - 1 = 0, refuting the claimed
window invariant (the subsequent visiblePagers slice would be out of
range). -/
theorem C2_window_bound_violated :
    (updatePagers (updatePagers initialModel "a | b | c | d " 14
        (ParseOut.ok [⟨["a"], "a"⟩, ⟨["b"], "b"⟩, ⟨["c"], "c"⟩, ⟨["d"], "d"⟩]
          [2, 6, 10])).1
      "" 0 (ParseOut.ok [] [])).1.pagers.length = 1 ∧
    (updatePagers (updatePagers initialModel "a | b | c | d " 14
        (ParseOut.ok [⟨["a"], "a"⟩, ⟨["b"], "b"⟩, ⟨["c"], "c"⟩, ⟨["d"], "d"⟩]
          [2, 6, 10])).1
      "" 0 (ParseOut.ok [] [])).1.maxPager = 1 := by
  decide

/-- C3: on an edit whose parse keeps the stage count and has a diverge
index d (the first index from 1 whose pager command is not argv-equal to
the new command at that position — fourth conjunct), the pass leaves
every stage before d untouched (second conjunct) and uncancelled (with
distinct source ids, third and fifth conjuncts), closes exactly the
stages from d onward in ascending order (third conjunct), and rebuilds
them in order: each rebuilt stage runs the new command, reads the
immediately preceding stage's (possibly just rebuilt) shared source as
standard input, and owns a freshly allocated source (sixth conjunct). -/
theorem C3_diverge_rebuild (m : MState) (rawShell : String) (pos : Nat)
    (cs : List Command) (ps : List Nat)
    (hlen : m.pagers.length = cs.length + 1)
    (hsp : hasSuffixSpace rawShell = true)
    (hd : 0 < findRebuildIdx m.pagers cs)
    (hne : ∀ c ∈ cs, c.empty = false)
    (hnodup : (m.pagers.map (fun p => p.shared)).Nodup) :
    (updatePagers m rawShell pos (ParseOut.ok cs ps)).1.pagers.length = m.pagers.length ∧
    (updatePagers m rawShell pos (ParseOut.ok cs ps)).1.pagers.take
        (findRebuildIdx m.pagers cs).toNat =
      m.pagers.take (findRebuildIdx m.pagers cs).toNat ∧
    (updatePagers m rawShell pos (ParseOut.ok cs ps)).2 =
      (m.pagers.drop (findRebuildIdx m.pagers cs).toNat).map (fun p => p.shared) ∧
    (∀ q ∈ m.pagers.take (findRebuildIdx m.pagers cs).toNat,
      q.shared ∉ (updatePagers m rawShell pos (ParseOut.ok cs ps)).2) ∧
    (1 ≤ (findRebuildIdx m.pagers cs).toNat ∧
      (findRebuildIdx m.pagers cs).toNat < m.pagers.length ∧
      ((m.pagers.getD (findRebuildIdx m.pagers cs).toNat default).command.equal
        (cs.getD ((findRebuildIdx m.pagers cs).toNat - 1) default)) = false ∧
      ∀ j, 1 ≤ j → j < (findRebuildIdx m.pagers cs).toNat →
        ((m.pagers.getD j default).command.equal (cs.getD (j - 1) default)) = true) ∧
    (∀ j, (findRebuildIdx m.pagers cs).toNat ≤ j → j < m.pagers.length →
      ((updatePagers m rawShell pos (ParseOut.ok cs ps)).1.pagers.getD j default).command =
          cs.getD (j - 1) default ∧
        ((updatePagers m rawShell pos (ParseOut.ok cs ps)).1.pagers.getD j default).stdin =
          some (((updatePagers m rawShell pos
            (ParseOut.ok cs ps)).1.pagers.getD (j - 1) default).shared) ∧
        m.nextShared ≤
          ((updatePagers m rawShell pos (ParseOut.ok cs ps)).1.pagers.getD j default).shared) := by
  have hgrow : growPagers m.pagers m.nextShared (cs.length + 1) =
      (m.pagers, m.nextShared) := by
    unfold growPagers
    have h0 : cs.length + 1 - m.pagers.length = 0 := by omega
    rw [h0]
    rfl
  have hdrop : m.pagers.drop (cs.length + 1) = [] := by
    rw [← hlen]
    exact List.drop_length m.pagers
  have htake : m.pagers.take (cs.length + 1) = m.pagers := by
    rw [← hlen]
    exact List.take_length m.pagers
  rcases findRebuildIdx_found m.pagers cs hd with ⟨hd1, hdlen, hdne, hdmin⟩
  have hpag : (updatePagers m rawShell pos (ParseOut.ok cs ps)).1.pagers =
      (rebuildLoop (m.pagers.length - (findRebuildIdx m.pagers cs).toNat) m.pagers cs
        (findRebuildIdx m.pagers cs).toNat m.nextShared).1 := by
    simp [updatePagers, hsp, hgrow, hdrop, htake, hd, rebuildFrom]
  have hclosed : (updatePagers m rawShell pos (ParseOut.ok cs ps)).2 =
      (rebuildLoop (m.pagers.length - (findRebuildIdx m.pagers cs).toNat) m.pagers cs
        (findRebuildIdx m.pagers cs).toNat m.nextShared).2.2 := by
    simp [updatePagers, hsp, hgrow, hdrop, htake, hd, rebuildFrom]
  have hik : (findRebuildIdx m.pagers cs).toNat +
      (m.pagers.length - (findRebuildIdx m.pagers cs).toNat) = m.pagers.length := by omega
  have hclosed2 : (updatePagers m rawShell pos (ParseOut.ok cs ps)).2 =
      (m.pagers.drop (findRebuildIdx m.pagers cs).toNat).map (fun p => p.shared) := by
    rw [hclosed]
    exact rebuildLoop_closed _ m.pagers cs _ m.nextShared hik
  refine ⟨?_, ?_, hclosed2, ?_, ⟨hd1, hdlen, hdne, hdmin⟩, ?_⟩
  · rw [hpag]
    exact rebuildLoop_length _ m.pagers cs _ m.nextShared
  · rw [hpag]
    exact rebuildLoop_take _ m.pagers cs _ m.nextShared
  · intro q hq
    rw [hclosed2]
    have hsplit : m.pagers.map (fun p => p.shared) =
        (m.pagers.take (findRebuildIdx m.pagers cs).toNat).map (fun p => p.shared) ++
        (m.pagers.drop (findRebuildIdx m.pagers cs).toNat).map (fun p => p.shared) := by
      rw [← List.map_append, List.take_append_drop]
    rw [hsplit] at hnodup
    rcases List.nodup_append.mp hnodup with ⟨_, _, hdisj⟩
    intro hmem
    exact hdisj (List.mem_map_of_mem (fun p => p.shared) hq) hmem
  · intro j hdj hjlen
    have hjm : j - 1 < cs.length := by omega
    have hcs_mem : cs.getD (j - 1) default ∈ cs := by
      rw [List.getD_eq_getElem cs default hjm]
      exact List.getElem_mem hjm
    have hcne : (cs.getD (j - 1) default).empty = false := hne _ hcs_mem
    have hstep := rebuildLoop_getD (m.pagers.length - (findRebuildIdx m.pagers cs).toNat)
      m.pagers cs (findRebuildIdx m.pagers cs).toNat m.nextShared hik hd1 j hdj hjlen
    rw [hpag, hstep]
    unfold newCommandPager
    rw [if_neg (by rw [hcne]; exact Bool.false_ne_true)]
    refine ⟨rfl, rfl, ?_⟩
    show m.nextShared ≤ m.nextShared + (j - (findRebuildIdx m.pagers cs).toNat)
    omega

/-- Witness for C3 at a running pipeline a, b, c whose edit changes only
the middle command: stages b and c (source ids 2 and 3) are closed and
rebuilt, and the rebuilt third stage reads the rebuilt second stage's new
shared source. -/
theorem C3_diverge_rebuild_witness :
    0 < findRebuildIdx
        [⟨default, 0, none⟩, ⟨⟨["a"], "a"⟩, 1, some 0⟩, ⟨⟨["b"], "b"⟩, 2, some 1⟩,
          ⟨⟨["c"], "c"⟩, 3, some 2⟩]
        [⟨["a"], "a"⟩, ⟨["b", "x"], "b x"⟩, ⟨["c"], "c"⟩] ∧
    (updatePagers
        ⟨[⟨default, 0, none⟩, ⟨⟨["a"], "a"⟩, 1, some 0⟩, ⟨⟨["b"], "b"⟩, 2, some 1⟩,
            ⟨⟨["c"], "c"⟩, 3, some 2⟩],
          [⟨["a"], "a"⟩, ⟨["b"], "b"⟩, ⟨["c"], "c"⟩], [0, 2, 6], 0, 2, 1, none, 4⟩
        "a | b x | c " 5
        (ParseOut.ok [⟨["a"], "a"⟩, ⟨["b", "x"], "b x"⟩, ⟨["c"], "c"⟩] [2, 8])).2 =
      [2, 3] ∧
    ((updatePagers
        ⟨[⟨default, 0, none⟩, ⟨⟨["a"], "a"⟩, 1, some 0⟩, ⟨⟨["b"], "b"⟩, 2, some 1⟩,
            ⟨⟨["c"], "c"⟩, 3, some 2⟩],
          [⟨["a"], "a"⟩, ⟨["b"], "b"⟩, ⟨["c"], "c"⟩], [0, 2, 6], 0, 2, 1, none, 4⟩
        "a | b x | c " 5
        (ParseOut.ok [⟨["a"], "a"⟩, ⟨["b", "x"], "b x"⟩, ⟨["c"], "c"⟩]
          [2, 8])).1.pagers.getD 3 default).stdin =
      some (((updatePagers
        ⟨[⟨default, 0, none⟩, ⟨⟨["a"], "a"⟩, 1, some 0⟩, ⟨⟨["b"], "b"⟩, 2, some 1⟩,
            ⟨⟨["c"], "c"⟩, 3, some 2⟩],
          [⟨["a"], "a"⟩, ⟨["b"], "b"⟩, ⟨["c"], "c"⟩], [0, 2, 6], 0, 2, 1, none, 4⟩
        "a | b x | c " 5
        (ParseOut.ok [⟨["a"], "a"⟩, ⟨["b", "x"], "b x"⟩, ⟨["c"], "c"⟩]
          [2, 8])).1.pagers.getD 2 default).shared) := by
  have h := C3_diverge_rebuild
    ⟨[⟨default, 0, none⟩, ⟨⟨["a"], "a"⟩, 1, some 0⟩, ⟨⟨["b"], "b"⟩, 2, some 1⟩,
        ⟨⟨["c"], "c"⟩, 3, some 2⟩],
      [⟨["a"], "a"⟩, ⟨["b"], "b"⟩, ⟨["c"], "c"⟩], [0, 2, 6], 0, 2, 1, none, 4⟩
    "a | b x | c " 5 [⟨["a"], "a"⟩, ⟨["b", "x"], "b x"⟩, ⟨["c"], "c"⟩] [2, 8]
    (by decide) (by decide) (by decide) (by decide) (by decide)
  refine ⟨by decide, h.2.2.1.trans (by decide), ?_⟩
  exact (h.2.2.2.2.2 3 (by decide) (by decide)).2.1

/-- C6 counterexample: after an edit parsed into one command, the stage
list has exactly len(commands) + 1 = 2 entries (index 0 the input source,
index 1 the command), so there is no stage at index N + 1 = 2; the claimed
decomposition (indices 1..N per command plus a trailing placeholder at
index N + 1) would require at least N + 2 = 3 stages. -/
theorem C6_no_trailing_placeholder_counterexample :
    (updatePagers initialModel "grep x " 7
      (ParseOut.ok [⟨["grep", "x"], "grep x"⟩] [])).1.commands.length = 1 ∧
    (updatePagers initialModel "grep x " 7
      (ParseOut.ok [⟨["grep", "x"], "grep x"⟩] [])).1.pagers.length = 2 ∧
    ¬ (2 < (updatePagers initialModel "grep x " 7
      (ParseOut.ok [⟨["grep", "x"], "grep x"⟩] [])).1.pagers.length) := by
  decide

/-- C6 amended: after an edit pass whose parse succeeds (and does not trip
the press-space guard), the stage count equals len(commands) + 1 where the
extra stage is the index-0 input source (which is preserved); every index
1..N holds a stage whose command is argv-equal to the corresponding parsed
command (a trailing empty placeholder exists only as the parser's extra
empty command); missing stages were appended and excess ones dropped to
reach that count. -/
theorem C6_stage_list_amended (m : MState) (rawShell : String) (pos : Nat)
    (cs : List Command) (ps : List Nat)
    (hm : m.pagers ≠ [])
    (hsp : hasSuffixSpace rawShell = true) :
    (updatePagers m rawShell pos (ParseOut.ok cs ps)).1.pagers.length = cs.length + 1 ∧
    (updatePagers m rawShell pos (ParseOut.ok cs ps)).1.commands = cs ∧
    (updatePagers m rawShell pos (ParseOut.ok cs ps)).1.pagers.head? = m.pagers.head? ∧
    ∀ i, 1 ≤ i → i ≤ cs.length →
      (((updatePagers m rawShell pos (ParseOut.ok cs ps)).1.pagers.getD i default).command.equal
        (cs.getD (i - 1) default)) = true := by
  rcases growLoop_append (cs.length + 1 - m.pagers.length) m.pagers m.nextShared with
    ⟨ext, hext, hextlen, hgn⟩
  have hpg1 : (growPagers m.pagers m.nextShared (cs.length + 1)).1 = m.pagers ++ ext := hext
  have hpg1len : (m.pagers ++ ext).length ≥ cs.length + 1 := by
    simp only [List.length_append, hextlen]
    omega
  have hpg2len : ((m.pagers ++ ext).take (cs.length + 1)).length = cs.length + 1 := by
    simp only [List.length_take]
    omega
  have hpg2hd : ((m.pagers ++ ext).take (cs.length + 1))[0]? = m.pagers[0]? := by
    rw [getElem?_zero_take (by omega)]
    cases hmp : m.pagers with
    | nil => exact absurd hmp hm
    | cons q qs => simp
  by_cases hif : 0 < findRebuildIdx ((m.pagers ++ ext).take (cs.length + 1)) cs
  · rcases findRebuildIdx_found _ cs hif with ⟨hd1, hdlen, hdne, hdmin⟩
    have hik : (findRebuildIdx ((m.pagers ++ ext).take (cs.length + 1)) cs).toNat +
        (((m.pagers ++ ext).take (cs.length + 1)).length -
          (findRebuildIdx ((m.pagers ++ ext).take (cs.length + 1)) cs).toNat) =
        ((m.pagers ++ ext).take (cs.length + 1)).length := by omega
    have hpag : (updatePagers m rawShell pos (ParseOut.ok cs ps)).1.pagers =
        (rebuildLoop (((m.pagers ++ ext).take (cs.length + 1)).length -
            (findRebuildIdx ((m.pagers ++ ext).take (cs.length + 1)) cs).toNat)
          ((m.pagers ++ ext).take (cs.length + 1)) cs
          (findRebuildIdx ((m.pagers ++ ext).take (cs.length + 1)) cs).toNat
          (growPagers m.pagers m.nextShared (cs.length + 1)).2).1 := by
      simp [updatePagers, hsp, hpg1, hif, rebuildFrom, hpg2len]
    refine ⟨?_, ?_, ?_, ?_⟩
    · rw [hpag, rebuildLoop_length]
      exact hpg2len
    · simp [updatePagers, hsp]
    · rw [hpag]
      rw [List.head?_eq_getElem?, List.head?_eq_getElem?]
      have htk := rebuildLoop_take (((m.pagers ++ ext).take (cs.length + 1)).length -
            (findRebuildIdx ((m.pagers ++ ext).take (cs.length + 1)) cs).toNat)
          ((m.pagers ++ ext).take (cs.length + 1)) cs
          (findRebuildIdx ((m.pagers ++ ext).take (cs.length + 1)) cs).toNat
          (growPagers m.pagers m.nextShared (cs.length + 1)).2
      have h0 : ∀ l1 l2 : List Pager, l1.take (findRebuildIdx ((m.pagers ++ ext).take
          (cs.length + 1)) cs).toNat = l2.take (findRebuildIdx ((m.pagers ++ ext).take
          (cs.length + 1)) cs).toNat → l1[0]? = l2[0]? := by
        intro l1 l2 hl
        have h00 := congrArg (fun l => l[0]?) hl
        simp only [List.getElem?_take] at h00
        rw [if_pos (by omega : (0 : Nat) < (findRebuildIdx
              ((m.pagers ++ ext).take (cs.length + 1)) cs).toNat),
            if_pos (by omega : (0 : Nat) < (findRebuildIdx
              ((m.pagers ++ ext).take (cs.length + 1)) cs).toNat)] at h00
        exact h00
      rw [h0 _ _ htk]
      exact hpg2hd
    · intro i h1i hile
      have hilen : i < ((m.pagers ++ ext).take (cs.length + 1)).length := by omega
      rw [hpag]
      by_cases hlt : i < (findRebuildIdx ((m.pagers ++ ext).take (cs.length + 1)) cs).toNat
      · have htk := rebuildLoop_take (((m.pagers ++ ext).take (cs.length + 1)).length -
            (findRebuildIdx ((m.pagers ++ ext).take (cs.length + 1)) cs).toNat)
          ((m.pagers ++ ext).take (cs.length + 1)) cs
          (findRebuildIdx ((m.pagers ++ ext).take (cs.length + 1)) cs).toNat
          (growPagers m.pagers m.nextShared (cs.length + 1)).2
        have hgd : ((rebuildLoop (((m.pagers ++ ext).take (cs.length + 1)).length -
            (findRebuildIdx ((m.pagers ++ ext).take (cs.length + 1)) cs).toNat)
          ((m.pagers ++ ext).take (cs.length + 1)) cs
          (findRebuildIdx ((m.pagers ++ ext).take (cs.length + 1)) cs).toNat
          (growPagers m.pagers m.nextShared (cs.length + 1)).2).1.getD i default) =
            (((m.pagers ++ ext).take (cs.length + 1)).getD i default) := by
          rw [← getD_take_lt hlt default, htk, getD_take_lt hlt default]
        rw [hgd]
        exact hdmin i h1i hlt
      · have hge : (findRebuildIdx ((m.pagers ++ ext).take (cs.length + 1)) cs).toNat ≤ i := by
          omega
        have hstep := rebuildLoop_getD (((m.pagers ++ ext).take (cs.length + 1)).length -
            (findRebuildIdx ((m.pagers ++ ext).take (cs.length + 1)) cs).toNat)
          ((m.pagers ++ ext).take (cs.length + 1)) cs
          (findRebuildIdx ((m.pagers ++ ext).take (cs.length + 1)) cs).toNat
          (growPagers m.pagers m.nextShared (cs.length + 1)).2 hik hd1 i hge hilen
        rw [hstep]
        exact newCommandPager_equal _ _ _
  · have hpag : (updatePagers m rawShell pos (ParseOut.ok cs ps)).1.pagers =
        (m.pagers ++ ext).take (cs.length + 1) := by
      simp [updatePagers, hsp, hpg1, hif, rebuildFrom]
    refine ⟨?_, ?_, ?_, ?_⟩
    · rw [hpag]
      exact hpg2len
    · simp [updatePagers, hsp]
    · rw [hpag]
      rw [List.head?_eq_getElem?, List.head?_eq_getElem?]
      exact hpg2hd
    · intro i h1i hile
      have hilen : i < ((m.pagers ++ ext).take (cs.length + 1)).length := by omega
      rw [hpag]
      exact findRebuildIdx_neg _ cs hif i h1i hilen

/-- Witness for the amended C6: one parsed command yields two stages, and
the stage at index 1 runs that command. -/
theorem C6_stage_list_amended_witness :
    (updatePagers initialModel "grep x " 7
      (ParseOut.ok [⟨["grep", "x"], "grep x"⟩] [])).1.pagers.length = 2 ∧
    ((updatePagers initialModel "grep x " 7
      (ParseOut.ok [⟨["grep", "x"], "grep x"⟩] [])).1.pagers.getD 1
        default).command.equal ⟨["grep", "x"], "grep x"⟩ = true := by
  have h := C6_stage_list_amended initialModel "grep x " 7
    [⟨["grep", "x"], "grep x"⟩] [] (by decide) (by decide)
  refine ⟨h.1.trans (by decide), ?_⟩
  exact h.2.2.2 1 (by decide) (by decide)

/-- C7 counterexample: from the freshly initialized model (two stages, no
commands), a first edit whose parse fails drops the trailing placeholder
stage and closes it — a parse error does not leave the stage list
unchanged there. -/
theorem C7_parse_error_drops_placeholder_counterexample :
    (updatePagers initialModel "|" 1
      (ParseOut.fail "1:0: missing statement before |")).1.pagers.length = 1 ∧
    initialModel.pagers.length = 2 ∧
    (updatePagers initialModel "|" 1
      (ParseOut.fail "1:0: missing statement before |")).2 = [1] := by
  decide

/-- C7 amended: when the stage count already equals len(commands) + 1 and
the stages match the current commands (as after any successful pass), an
edit whose parse fails changes nothing in the pipeline: the stage list,
commands and pipe offsets are retained, no stage is closed, and the parse
error is surfaced in the model's error field. -/
theorem C7_parse_error_amended (m : MState) (raw : String) (pos : Nat) (e : String)
    (h1 : m.pagers.length = m.commands.length + 1)
    (h2 : findRebuildIdx m.pagers m.commands = -1) :
    (updatePagers m raw pos (ParseOut.fail e)).1.pagers = m.pagers ∧
    (updatePagers m raw pos (ParseOut.fail e)).1.commands = m.commands ∧
    (updatePagers m raw pos (ParseOut.fail e)).1.pipes = m.pipes ∧
    (updatePagers m raw pos (ParseOut.fail e)).1.err = some (UIError.parse e) ∧
    (updatePagers m raw pos (ParseOut.fail e)).2 = [] := by
  have hgrow : growPagers m.pagers m.nextShared (m.commands.length + 1) =
      (m.pagers, m.nextShared) := by
    unfold growPagers
    have h0 : m.commands.length + 1 - m.pagers.length = 0 := by omega
    rw [h0]
    rfl
  have hdrop : m.pagers.drop (m.commands.length + 1) = [] := by
    rw [← h1]
    exact List.drop_length m.pagers
  have htake : m.pagers.take (m.commands.length + 1) = m.pagers := by
    rw [← h1]
    exact List.take_length m.pagers
  simp [updatePagers, hgrow, hdrop, htake, h2]

/-- Witness for the amended C7 at a one-command pipeline. -/
theorem C7_parse_error_amended_witness :
    (updatePagers
        ⟨[⟨default, 0, none⟩, ⟨⟨["a"], "a"⟩, 2, some 0⟩], [⟨["a"], "a"⟩], [0],
          0, 1, 1, none, 3⟩
        "a |" 3 (ParseOut.fail "1:2: missing statement after |")).1.pagers =
      [⟨default, 0, none⟩, ⟨⟨["a"], "a"⟩, 2, some 0⟩] ∧
    (updatePagers
        ⟨[⟨default, 0, none⟩, ⟨⟨["a"], "a"⟩, 2, some 0⟩], [⟨["a"], "a"⟩], [0],
          0, 1, 1, none, 3⟩
        "a |" 3 (ParseOut.fail "1:2: missing statement after |")).1.err =
      some (UIError.parse "1:2: missing statement after |") ∧
    (updatePagers
        ⟨[⟨default, 0, none⟩, ⟨⟨["a"], "a"⟩, 2, some 0⟩], [⟨["a"], "a"⟩], [0],
          0, 1, 1, none, 3⟩
        "a |" 3 (ParseOut.fail "1:2: missing statement after |")).2 = [] := by
  have h := C7_parse_error_amended
    ⟨[⟨default, 0, none⟩, ⟨⟨["a"], "a"⟩, 2, some 0⟩], [⟨["a"], "a"⟩], [0],
      0, 1, 1, none, 3⟩
    "a |" 3 "1:2: missing statement after |" (by decide) (by decide)
  exact ⟨h.1, h.2.2.2.1, h.2.2.2.2⟩

/-- C10: if the parse succeeds and the final parsed command is a single
bare token (a nonempty program name with no arguments) while the raw text
does not end with a space, the pass rejects the edit with the press-space
error: the previous good commands and pipe offsets are retained, the
stage list is unchanged, and no stage is closed or rebuilt. -/
theorem C10_press_space_guard (m : MState) (raw : String) (pos : Nat)
    (cs : List Command) (ps : List Nat) (x rr : String)
    (h1 : m.pagers.length = m.commands.length + 1)
    (h2 : findRebuildIdx m.pagers m.commands = -1)
    (hcs : cs ≠ [])
    (hlast : cs.getLast? = some ⟨[x], rr⟩)
    (hx : x ≠ "")
    (hsp : hasSuffixSpace raw = false) :
    (updatePagers m raw pos (ParseOut.ok cs ps)).1.pagers = m.pagers ∧
    (updatePagers m raw pos (ParseOut.ok cs ps)).1.commands = m.commands ∧
    (updatePagers m raw pos (ParseOut.ok cs ps)).1.pipes = m.pipes ∧
    (updatePagers m raw pos (ParseOut.ok cs ps)).1.err = some (UIError.pressSpace x) ∧
    (updatePagers m raw pos (ParseOut.ok cs ps)).2 = [] := by
  have hgrow : growPagers m.pagers m.nextShared (m.commands.length + 1) =
      (m.pagers, m.nextShared) := by
    unfold growPagers
    have h0 : m.commands.length + 1 - m.pagers.length = 0 := by omega
    rw [h0]
    rfl
  have hdrop : m.pagers.drop (m.commands.length + 1) = [] := by
    rw [← h1]
    exact List.drop_length m.pagers
  have htake : m.pagers.take (m.commands.length + 1) = m.pagers := by
    rw [← h1]
    exact List.take_length m.pagers
  have hlen0 : 0 < cs.length := List.length_pos.mpr hcs
  simp [updatePagers, hlast, Command.name, Command.empty, Command.args, hsp, hlen0, hx,
    hgrow, hdrop, htake, h2]

/-- Witness for C10: typing the bare program name g after a pipe rejects
the edit and keeps the previous one-command pipeline running. -/
theorem C10_press_space_witness :
    (updatePagers
        ⟨[⟨default, 0, none⟩, ⟨⟨["a"], "a"⟩, 2, some 0⟩], [⟨["a"], "a"⟩], [0],
          0, 1, 1, none, 3⟩
        "a | g" 5 (ParseOut.ok [⟨["a"], "a"⟩, ⟨["g"], "g"⟩] [2])).1.err =
      some (UIError.pressSpace "g") ∧
    (updatePagers
        ⟨[⟨default, 0, none⟩, ⟨⟨["a"], "a"⟩, 2, some 0⟩], [⟨["a"], "a"⟩], [0],
          0, 1, 1, none, 3⟩
        "a | g" 5 (ParseOut.ok [⟨["a"], "a"⟩, ⟨["g"], "g"⟩] [2])).1.commands =
      [⟨["a"], "a"⟩] ∧
    (updatePagers
        ⟨[⟨default, 0, none⟩, ⟨⟨["a"], "a"⟩, 2, some 0⟩], [⟨["a"], "a"⟩], [0],
          0, 1, 1, none, 3⟩
        "a | g" 5 (ParseOut.ok [⟨["a"], "a"⟩, ⟨["g"], "g"⟩] [2])).2 = [] := by
  have h := C10_press_space_guard
    ⟨[⟨default, 0, none⟩, ⟨⟨["a"], "a"⟩, 2, some 0⟩], [⟨["a"], "a"⟩], [0],
      0, 1, 1, none, 3⟩
    "a | g" 5 [⟨["a"], "a"⟩, ⟨["g"], "g"⟩] [2] "g" "g"
    (by decide) (by decide) (by decide) (by decide) (by decide) (by decide)
  exact ⟨h.2.2.2.1, h.2.1, h.2.2.2.2⟩
